import Mathlib

/-!
# FD.js domain arithmetic and computation spaces: a shallow embedding

This file embeds the finite-domain constraint engine of `fd.js`
(domains as canonical sorted interval sequences, the domain operations,
and the computation-space / propagator layer) as executable Lean
definitions and proves properties of them.

Domains are lists of closed integer intervals `(lo, hi) : Int × Int`.
The JS constant `FD_SUP = 100000000` bounds all domain values.
-/

namespace FD

/-- The JS constant `FD_SUP`. -/
def FD_SUP : Int := 100000000

/-- An interval `[lo, hi]`, both bounds inclusive. -/
abbrev Iv := Int × Int

/-- `n` is a member of the integer set denoted by the interval list `d`. -/
def memD (d : List Iv) (n : Int) : Prop :=
  ∃ iv ∈ d, iv.1 ≤ n ∧ n ≤ iv.2

instance (d : List Iv) (n : Int) : Decidable (memD d n) :=
  inferInstanceAs (Decidable (∃ iv ∈ d, iv.1 ≤ n ∧ n ≤ iv.2))

/-- Comparator used by `simplify_domain`'s sort: ascending by `lo`
(the JS comparator `d1[0] - d2[0]`). -/
def byLo (a b : Iv) : Prop := a.1 ≤ b.1

instance : DecidableRel byLo := fun a b => inferInstanceAs (Decidable (a.1 ≤ b.1))

instance : IsTotal Iv byLo := ⟨fun a b => Int.le_total a.1 b.1⟩

instance : IsTrans Iv byLo := ⟨fun _ _ _ h1 h2 => le_trans h1 h2⟩

/-- The scan of `simplify_domain` that looks for the first index with an
empty interval or an ordering/overlap problem (`next[1] < next[0] ||
next[0] <= prevR || next[1] <= prevR`); returns `true` when the scan
runs off the end, i.e. the input is already in simplified form. -/
def fast_ok (prevR : Int) : List Iv → Bool
  | [] => true
  | next :: rest =>
    if next.2 < next.1 ∨ next.1 ≤ prevR ∨ next.2 ≤ prevR then false
    else fast_ok next.2 rest

/-- The merge loop of `simplify_domain`: consecutive intervals of the
lo-sorted list are merged when `prev[1] >= next[0]`, taking
`prev[1] = max(prev[1], next[1])`. -/
def merge_loop (prev : Iv) : List Iv → List Iv
  | [] => [prev]
  | next :: rest =>
    if next.1 ≤ prev.2 then merge_loop (prev.1, max prev.2 next.2) rest
    else prev :: merge_loop next rest

/-- `simplify_domain` (the "canonicalize" operation): returns the input
unchanged when the fast scan succeeds, otherwise sorts by `lo` and runs
the merge loop. -/
def simplify_domain (d : List Iv) : List Iv :=
  match d with
  | [] => []
  | [iv] => if iv.2 < iv.1 then [] else [iv]
  | iv :: iv2 :: rest =>
    if iv.1 ≤ iv.2 ∧ fast_ok iv.2 (iv2 :: rest) then iv :: iv2 :: rest
    else
      match List.insertionSort byLo (iv :: iv2 :: rest) with
      | [] => []
      | h :: t => merge_loop h t

@[simp]
theorem memD_nil (n : Int) : memD [] n ↔ False := by
  simp [memD]

@[simp]
theorem memD_cons (iv : Iv) (l : List Iv) (n : Int) :
    memD (iv :: l) n ↔ (iv.1 ≤ n ∧ n ≤ iv.2) ∨ memD l n := by
  simp [memD]

theorem memD_perm {l l' : List Iv} (h : l.Perm l') (n : Int) :
    memD l n ↔ memD l' n := by
  unfold memD
  constructor
  · rintro ⟨iv, hm, hb⟩; exact ⟨iv, (h.mem_iff).1 hm, hb⟩
  · rintro ⟨iv, hm, hb⟩; exact ⟨iv, (h.mem_iff).2 hm, hb⟩

theorem memD_merge_loop (l : List Iv) (p : Iv)
    (h1 : ∀ q ∈ l, p.1 ≤ q.1) (h2 : List.Sorted byLo l) (n : Int) :
    memD (merge_loop p l) n ↔ ((p.1 ≤ n ∧ n ≤ p.2) ∨ memD l n) := by
  induction l generalizing p with
  | nil => simp [merge_loop]
  | cons next rest ih =>
    have hpn : p.1 ≤ next.1 := h1 next (by simp)
    have h1r : ∀ q ∈ rest, p.1 ≤ q.1 := fun q hq => h1 q (by simp [hq])
    have h2r : List.Sorted byLo rest := h2.of_cons
    have hnr : ∀ q ∈ rest, next.1 ≤ q.1 := fun q hq => (List.sorted_cons.1 h2).1 q hq
    by_cases hm : next.1 ≤ p.2
    · rw [merge_loop, if_pos hm, ih (p.1, max p.2 next.2) h1r h2r, memD_cons]
      constructor
      · rintro (⟨ha, hb⟩ | h)
        · rcases le_total p.2 next.2 with hc | hc
          · rw [max_eq_right hc] at hb
            rcases le_or_lt n p.2 with hd | hd
            · exact Or.inl ⟨ha, hd⟩
            · exact Or.inr (Or.inl ⟨by omega, hb⟩)
          · rw [max_eq_left hc] at hb
            exact Or.inl ⟨ha, hb⟩
        · exact Or.inr (Or.inr h)
      · rintro (⟨ha, hb⟩ | ⟨ha, hb⟩ | h)
        · exact Or.inl ⟨ha, le_trans hb (le_max_left _ _)⟩
        · exact Or.inl ⟨by omega, le_trans hb (le_max_right _ _)⟩
        · exact Or.inr h
    · rw [merge_loop, if_neg hm, memD_cons, ih next hnr h2r, memD_cons]

theorem merge_loop_ne_nil (l : List Iv) (p : Iv) : merge_loop p l ≠ [] := by
  induction l generalizing p with
  | nil => simp [merge_loop]
  | cons next rest ih =>
    rw [merge_loop]
    split
    · exact ih _
    · simp

/-- `simplify_domain` never changes the set of integers a domain denotes. -/
theorem memD_simplify_domain (d : List Iv) (n : Int) :
    memD (simplify_domain d) n ↔ memD d n := by
  match d with
  | [] => rfl
  | [iv] =>
    rw [simplify_domain]
    split
    · rename_i h
      simp only [memD_nil, memD_cons, false_iff, or_false]
      omega
    · rfl
  | iv :: iv2 :: rest =>
    rw [simplify_domain]
    split
    · rfl
    · have hperm : (List.insertionSort byLo (iv :: iv2 :: rest)).Perm
        (iv :: iv2 :: rest) := List.perm_insertionSort byLo _
      have hsorted : List.Sorted byLo (List.insertionSort byLo (iv :: iv2 :: rest)) :=
        List.sorted_insertionSort byLo _
      rcases hs : List.insertionSort byLo (iv :: iv2 :: rest) with _ | ⟨h, t⟩
      · exfalso
        have := hperm.length_eq
        rw [hs] at this
        simp at this
      · rw [hs] at hperm hsorted
        simp only [hs]
        rw [memD_merge_loop t h
          (fun q hq => (List.sorted_cons.1 hsorted).1 q hq)
          hsorted.of_cons n, ← memD_cons]
        exact memD_perm hperm n

@[simp]
theorem memD_append (l1 l2 : List Iv) (n : Int) :
    memD (l1 ++ l2) n ↔ memD l1 n ∨ memD l2 n := by
  unfold memD
  constructor
  · rintro ⟨iv, hm, hb⟩
    rcases List.mem_append.1 hm with h | h
    · exact Or.inl ⟨iv, h, hb⟩
    · exact Or.inr ⟨iv, h, hb⟩
  · rintro (⟨iv, hm, hb⟩ | ⟨iv, hm, hb⟩)
    · exact ⟨iv, List.mem_append.2 (Or.inl hm), hb⟩
    · exact ⟨iv, List.mem_append.2 (Or.inr hm), hb⟩

theorem memD_take_drop (l : List Iv) (i : Nat) (n : Int) :
    memD l n ↔ memD (l.take i) n ∨ memD (l.drop i) n := by
  conv_lhs => rw [← List.take_append_drop i l]
  exact memD_append _ _ n

/-- `domain_intersection` with its optional accumulator argument `r`: when
`r` is given, the intersection pieces are appended to it unsimplified;
when it is absent, the divide-and-conquer case simplifies the result.
In the divide-and-conquer case the four recursive calls `e1 .. e4` of the
source are written nested (each as the accumulator of the next), spelled
out once per shape of `r` since the final `return r ? d : simplify_domain(d)`
inspects `r`. -/
def domain_intersection_help : List Iv → List Iv → Option (List Iv) → List Iv
  | [], _, r => r.getD []
  | _ :: _, [], r => r.getD []
  | [b1], [b2], r =>
    r.getD [] ++ (if max b1.1 b2.1 ≤ min b1.2 b2.2
      then [(max b1.1 b2.1, min b1.2 b2.2)] else [])
  | [b1], q1 :: q2 :: qs, r => domain_intersection_help (q1 :: q2 :: qs) [b1] r
  | p1 :: p2 :: ps, [b2], r =>
    r.getD [] ++ (p1 :: p2 :: ps).filterMap (fun dd =>
      if dd.1 ≤ b2.2 ∧ b2.1 ≤ dd.2 then some (max b2.1 dd.1, min b2.2 dd.2)
      else none)
  | p1 :: p2 :: ps, q1 :: q2 :: qs, r =>
    match r with
    | some rr =>
      domain_intersection_help ((p1 :: p2 :: ps).drop ((p1 :: p2 :: ps).length / 2))
        ((q1 :: q2 :: qs).drop ((q1 :: q2 :: qs).length / 2))
        (some (domain_intersection_help ((p1 :: p2 :: ps).drop ((p1 :: p2 :: ps).length / 2))
          ((q1 :: q2 :: qs).take ((q1 :: q2 :: qs).length / 2))
          (some (domain_intersection_help ((p1 :: p2 :: ps).take ((p1 :: p2 :: ps).length / 2))
            ((q1 :: q2 :: qs).drop ((q1 :: q2 :: qs).length / 2))
            (some (domain_intersection_help ((p1 :: p2 :: ps).take ((p1 :: p2 :: ps).length / 2))
              ((q1 :: q2 :: qs).take ((q1 :: q2 :: qs).length / 2)) (some rr)))))))
    | none =>
      simplify_domain
        (domain_intersection_help ((p1 :: p2 :: ps).drop ((p1 :: p2 :: ps).length / 2))
          ((q1 :: q2 :: qs).drop ((q1 :: q2 :: qs).length / 2))
          (some (domain_intersection_help ((p1 :: p2 :: ps).drop ((p1 :: p2 :: ps).length / 2))
            ((q1 :: q2 :: qs).take ((q1 :: q2 :: qs).length / 2))
            (some (domain_intersection_help ((p1 :: p2 :: ps).take ((p1 :: p2 :: ps).length / 2))
              ((q1 :: q2 :: qs).drop ((q1 :: q2 :: qs).length / 2))
              (some (domain_intersection_help ((p1 :: p2 :: ps).take ((p1 :: p2 :: ps).length / 2))
                ((q1 :: q2 :: qs).take ((q1 :: q2 :: qs).length / 2)) none)))))))
termination_by d1 d2 _ => (d1.length + d2.length, d2.length)
decreasing_by
  all_goals simp [List.length_take, List.length_drop, Prod.lex_iff]
  all_goals omega

/-- `domain_intersection` as called without the accumulator. -/
def domain_intersection (d1 d2 : List Iv) : List Iv :=
  domain_intersection_help d1 d2 none

set_option maxHeartbeats 1000000 in
theorem memD_domain_intersection_help (d1 d2 : List Iv) (r : Option (List Iv)) (n : Int) :
    memD (domain_intersection_help d1 d2 r) n ↔
      memD (r.getD []) n ∨ (memD d1 n ∧ memD d2 n) := by
  induction d1, d2, r using domain_intersection_help.induct with
  | case1 d2 r => rw [domain_intersection_help]; simp
  | case2 p ps r => rw [domain_intersection_help]; simp
  | case3 b1 b2 r =>
    rw [domain_intersection_help, memD_append]
    have hpiece : memD (if max b1.1 b2.1 ≤ min b1.2 b2.2
        then [(max b1.1 b2.1, min b1.2 b2.2)] else []) n ↔
        ((b1.1 ≤ n ∧ n ≤ b1.2) ∧ (b2.1 ≤ n ∧ n ≤ b2.2)) := by
      split <;> simp only [memD_cons, memD_nil, or_false, false_iff] <;> omega
    rw [hpiece]
    simp only [memD_cons, memD_nil, or_false]
  | case4 b1 q1 q2 qs r ih =>
    rw [domain_intersection_help, ih]
    tauto
  | case5 p1 p2 ps b2 r =>
    rw [domain_intersection_help, memD_append]
    have hscan : memD ((p1 :: p2 :: ps).filterMap (fun dd =>
        if dd.1 ≤ b2.2 ∧ b2.1 ≤ dd.2 then some (max b2.1 dd.1, min b2.2 dd.2)
        else none)) n ↔ (memD (p1 :: p2 :: ps) n ∧ memD [b2] n) := by
      constructor
      · rintro ⟨iv, hm, hb⟩
        rcases List.mem_filterMap.1 hm with ⟨dd, hdd, hf⟩
        by_cases hc : dd.1 ≤ b2.2 ∧ b2.1 ≤ dd.2
        · rw [if_pos hc] at hf
          obtain rfl : (max b2.1 dd.1, min b2.2 dd.2) = iv := Option.some_inj.1 hf
          simp only at hb
          constructor
          · exact ⟨dd, hdd, by omega, by omega⟩
          · simp only [memD_cons, memD_nil, or_false]
            omega
        · rw [if_neg hc] at hf
          cases hf
      · rintro ⟨⟨dd, hdd, hb1, hb2⟩, h2⟩
        simp only [memD_cons, memD_nil, or_false] at h2
        refine ⟨(max b2.1 dd.1, min b2.2 dd.2),
          List.mem_filterMap.2 ⟨dd, hdd, ?_⟩, by omega, by omega⟩
        rw [if_pos ⟨by omega, by omega⟩]
    rw [hscan]
  | case6 p1 p2 ps q1 q2 qs rr ih1 ih2 ih3 ih4 =>
    rw [domain_intersection_help, ih4, Option.getD_some, ih3, Option.getD_some,
      ih2, Option.getD_some, ih1, Option.getD_some]
    rw [memD_take_drop (p1 :: p2 :: ps) ((p1 :: p2 :: ps).length / 2) n,
      memD_take_drop (q1 :: q2 :: qs) ((q1 :: q2 :: qs).length / 2) n]
    tauto
  | case7 p1 p2 ps q1 q2 qs ih1 ih2 ih3 ih4 =>
    rw [domain_intersection_help, memD_simplify_domain, ih4, Option.getD_some,
      ih3, Option.getD_some, ih2, Option.getD_some, ih1]
    rw [memD_take_drop (p1 :: p2 :: ps) ((p1 :: p2 :: ps).length / 2) n,
      memD_take_drop (q1 :: q2 :: qs) ((q1 :: q2 :: qs).length / 2) n]
    simp only [Option.getD_none, memD_nil]
    tauto

/-- C3: `domain_intersection` computes exactly the set-intersection of the
integer sets denoted by its arguments, and is commutative at the level of
the denoted sets.  (Proved for all interval lists, hence in particular
for canonical domains.) -/
theorem domain_intersection_correct (a b : List Iv) (n : Int) :
    (memD (domain_intersection a b) n ↔ memD a n ∧ memD b n) ∧
    (memD (domain_intersection a b) n ↔ memD (domain_intersection b a) n) := by
  have h1 : memD (domain_intersection a b) n ↔ memD a n ∧ memD b n := by
    rw [domain_intersection, memD_domain_intersection_help]
    simp
  have h2 : memD (domain_intersection b a) n ↔ memD b n ∧ memD a n := by
    rw [domain_intersection, memD_domain_intersection_help]
    simp
  exact ⟨h1, by rw [h1, h2, and_comm]⟩

/-- The canonical-form invariants as the specification states them:
sorted by `lo`, every interval non-empty, and adjacent intervals neither
overlapping nor touching (`hi + 1 < next lo`). -/
def claims_canonical (d : List Iv) : Prop :=
  List.Chain' byLo d ∧ (∀ iv ∈ d, iv.1 ≤ iv.2) ∧
    List.Chain' (fun a b => a.2 + 1 < b.1) d

instance (d : List Iv) : Decidable (claims_canonical d) :=
  inferInstanceAs (Decidable (List.Chain' byLo d ∧ (∀ iv ∈ d, iv.1 ≤ iv.2) ∧
    List.Chain' (fun a b : Iv => a.2 + 1 < b.1) d))

theorem merge_loop_head_lo (l : List Iv) (p : Iv) :
    ∃ hi rest', merge_loop p l = (p.1, hi) :: rest' := by
  induction l generalizing p with
  | nil => exact ⟨p.2, [], rfl⟩
  | cons next rest ih =>
    rw [merge_loop]
    split
    · exact ih (p.1, max p.2 next.2)
    · exact ⟨p.2, merge_loop next rest, rfl⟩

theorem merge_loop_chain_sep (l : List Iv) (p : Iv) :
    List.Chain' (fun a b : Iv => a.2 < b.1) (merge_loop p l) := by
  induction l generalizing p with
  | nil => simp [merge_loop]
  | cons next rest ih =>
    rw [merge_loop]
    split
    · exact ih _
    · rename_i hnm
      obtain ⟨hi, rest', heq⟩ := merge_loop_head_lo rest next
      rw [heq]
      have hchain := ih next
      rw [heq] at hchain
      exact List.Chain'.cons (by simpa using hnm) hchain

theorem merge_loop_chain_byLo (l : List Iv) (p : Iv)
    (h : List.Sorted byLo (p :: l)) :
    List.Chain' byLo (merge_loop p l) := by
  induction l generalizing p with
  | nil => simp [merge_loop]
  | cons next rest ih =>
    rw [merge_loop]
    have hres : List.Sorted byLo (next :: rest) := h.of_cons
    split
    · refine ih (p.1, max p.2 next.2) ?_
      rw [List.sorted_cons] at h ⊢
      exact ⟨fun b hb => h.1 b (by simp [hb]), hres.of_cons⟩
    · obtain ⟨hi, rest', heq⟩ := merge_loop_head_lo rest next
      rw [heq]
      have := ih next hres
      rw [heq] at this
      exact List.Chain'.cons ((List.sorted_cons.1 h).1 next (by simp)) this

theorem merge_loop_nonempty (l : List Iv) (p : Iv)
    (hp : p.1 ≤ p.2) (hl : ∀ q ∈ l, q.1 ≤ q.2) :
    ∀ iv ∈ merge_loop p l, iv.1 ≤ iv.2 := by
  induction l generalizing p with
  | nil =>
    intro iv hiv
    rw [merge_loop] at hiv
    simp at hiv
    simp [hiv, hp]
  | cons next rest ih =>
    intro iv hiv
    rw [merge_loop] at hiv
    split at hiv
    · exact ih (p.1, max p.2 next.2) (le_trans hp (le_max_left _ _))
        (fun q hq => hl q (by simp [hq])) iv hiv
    · rcases List.mem_cons.1 hiv with rfl | hm
      · exact hp
      · exact ih next (hl next (by simp)) (fun q hq => hl q (by simp [hq])) iv hm

theorem fast_ok_spec (l : List Iv) (pr : Int) (h : fast_ok pr l = true) :
    (∀ iv ∈ l, iv.1 ≤ iv.2) ∧
    List.Chain' (fun a b : Iv => a.2 < b.1) l ∧
    (∀ iv ∈ l, pr < iv.1) := by
  induction l generalizing pr with
  | nil => simp
  | cons next rest ih =>
    rw [fast_ok] at h
    split at h
    · cases h
    · rename_i hc
      push_neg at hc
      obtain ⟨h1, h2, h3⟩ := ih next.2 h
      refine ⟨?_, ?_, ?_⟩
      · intro iv hiv
        rcases List.mem_cons.1 hiv with rfl | hm
        · omega
        · exact h1 iv hm
      · cases rest with
        | nil => simp
        | cons r2 rs =>
          exact List.Chain'.cons (h3 r2 (by simp)) h2
      · intro iv hiv
        rcases List.mem_cons.1 hiv with rfl | hm
        · omega
        · exact lt_of_lt_of_le (by omega) (le_of_lt (h3 iv hm))

theorem chain_byLo_of_sep (l : List Iv) (h1 : ∀ iv ∈ l, iv.1 ≤ iv.2)
    (h2 : List.Chain' (fun a b : Iv => a.2 < b.1) l) :
    List.Chain' byLo l := by
  induction l with
  | nil => simp
  | cons x t ih =>
    cases t with
    | nil => simp
    | cons y t' =>
      rw [List.chain'_cons] at h2 ⊢
      refine ⟨?_, ih (fun iv hiv => h1 iv (by simp [hiv])) h2.2⟩
      have hx := h1 x (by simp)
      unfold byLo
      omega

/-- C4 (amended): the output of `simplify_domain` is sorted by `lo` and
its adjacent intervals do not overlap (`hi < next lo`); if every input
interval is non-empty, so is every output interval.  (Touching intervals
are not merged and empty input intervals can survive the sort path, so
the spec's stronger invariant `hi + 1 < next lo` and unconditional
non-emptiness do not hold; see the counterexample.) -/
theorem simplify_domain_canonical_amended (d : List Iv) :
    List.Chain' (fun a b : Iv => a.2 < b.1) (simplify_domain d) ∧
    List.Chain' byLo (simplify_domain d) ∧
    ((∀ iv ∈ d, iv.1 ≤ iv.2) → ∀ iv ∈ simplify_domain d, iv.1 ≤ iv.2) := by
  match d with
  | [] => simp [simplify_domain]
  | [iv] =>
    rw [simplify_domain]
    split
    · simp
    · refine ⟨by simp, by simp, ?_⟩
      intro h iv' hiv'
      simp at hiv'
      subst hiv'
      exact h iv' (by simp)
  | iv :: iv2 :: rest =>
    rw [simplify_domain]
    split
    · rename_i hfast
      obtain ⟨h1, h2, h3⟩ := fast_ok_spec (iv2 :: rest) iv.2 hfast.2
      have hsep : List.Chain' (fun a b : Iv => a.2 < b.1) (iv :: iv2 :: rest) :=
        List.Chain'.cons (h3 iv2 (by simp)) h2
      have hne : ∀ q ∈ iv :: iv2 :: rest, q.1 ≤ q.2 := by
        intro q hq
        rcases List.mem_cons.1 hq with rfl | hm
        · exact hfast.1
        · exact h1 q hm
      exact ⟨hsep, chain_byLo_of_sep _ hne hsep, fun _ => hne⟩
    · have hperm : (List.insertionSort byLo (iv :: iv2 :: rest)).Perm
        (iv :: iv2 :: rest) := List.perm_insertionSort byLo _
      have hsorted : List.Sorted byLo (List.insertionSort byLo (iv :: iv2 :: rest)) :=
        List.sorted_insertionSort byLo _
      rcases hs : List.insertionSort byLo (iv :: iv2 :: rest) with _ | ⟨h, t⟩
      · simp
      · rw [hs] at hperm hsorted
        refine ⟨merge_loop_chain_sep t h, merge_loop_chain_byLo t h hsorted, ?_⟩
        intro hne
        have hne' : ∀ q ∈ h :: t, q.1 ≤ q.2 := fun q hq =>
          hne q (hperm.mem_iff.1 hq)
        exact merge_loop_nonempty t h (hne' h (by simp))
          (fun q hq => hne' q (by simp [hq]))

/-- C4 witness: the amended theorem applied at the concrete input
`[(3,4),(1,2)]`, every interval of which is non-empty. -/
theorem simplify_domain_canonical_amended_witness :
    List.Chain' (fun a b : Iv => a.2 < b.1)
      (simplify_domain [((3 : Int), (4 : Int)), (1, 2)]) ∧
    List.Chain' byLo (simplify_domain [((3 : Int), (4 : Int)), (1, 2)]) ∧
    (∀ iv ∈ simplify_domain [((3 : Int), (4 : Int)), (1, 2)], iv.1 ≤ iv.2) :=
  ⟨(simplify_domain_canonical_amended _).1,
   (simplify_domain_canonical_amended _).2.1,
   (simplify_domain_canonical_amended [((3 : Int), (4 : Int)), (1, 2)]).2.2
     (by decide)⟩

/-- C4 counterexample: on the input `[(3,4),(1,2),(8,6)]` the output of
`simplify_domain` keeps the touching pair `(1,2),(3,4)` unmerged (so
`hi + 1 < next lo` fails) and keeps the empty interval `(8,6)`. -/
theorem simplify_domain_not_claims_canonical :
    simplify_domain [((3 : Int), (4 : Int)), (1, 2), (8, 6)] =
      [(1, 2), (3, 4), (8, 6)] ∧
    ¬ claims_canonical (simplify_domain [((3 : Int), (4 : Int)), (1, 2), (8, 6)]) ∧
    ¬ (∀ iv ∈ simplify_domain [((3 : Int), (4 : Int)), (1, 2), (8, 6)], iv.1 ≤ iv.2) ∧
    ¬ List.Chain' (fun a b : Iv => a.2 + 1 < b.1)
      (simplify_domain [((3 : Int), (4 : Int)), (1, 2), (8, 6)]) := by
  have heq : simplify_domain [((3 : Int), (4 : Int)), (1, 2), (8, 6)] =
      [(1, 2), (3, 4), (8, 6)] := rfl
  rw [heq]
  refine ⟨rfl, ?_, ?_, ?_⟩
  · rintro ⟨-, h2, -⟩
    have := h2 (8, 6) (by simp)
    norm_num at this
  · intro h
    have := h (8, 6) (by simp)
    norm_num at this
  · intro h
    have := (List.chain'_cons.1 h).1
    norm_num at this

/-- The loop of `domain_complement`.  Faithful to the source: the running
position `end` is advanced with `d[0][1] + 1` (the *first* interval's
upper bound) on every iteration, and the final piece `[end, FD_SUP]` is
pushed only when `end < FD_SUP`. -/
def compl_loop (firstHi : Int) : Int → List Iv → List Iv
  | e, [] => if e < FD_SUP then [(e, FD_SUP)] else []
  | e, iv :: rest =>
    (if e < iv.1 then [(e, iv.1 - 1)] else []) ++ compl_loop firstHi (firstHi + 1) rest

/-- `domain_complement`: complement of a domain with respect to `[0, FD_SUP]`
(the source's comment states `domain U domain' = [[0, FD_SUP]]`). -/
def domain_complement (d : List Iv) : List Iv :=
  match d with
  | [] => [(0, FD_SUP)]
  | first :: _ => compl_loop first.2 0 d

/-- `domain_union`: concatenate and simplify. -/
def domain_union (d1 d2 : List Iv) : List Iv :=
  simplify_domain (d1 ++ d2)

/-- C1: evaluation of the complement code at two failing inputs.  For the
canonical domain `d = [[5,5],[10,10]]` the computed complement is
`[[0,4],[6,9],[6,SUP]]` (the loop advances `end` with `d[0][1]+1` instead
of `d[i][1]+1`), so `intersection(complement(d), d) = [[10,10]] ≠ []` and
`10 ∈ complement(d)` although `10 ∈ d`.  For `d = [[0, SUP-1]]` the
computed complement is `[]` (the final piece is pushed only when
`end < FD_SUP`), so `SUP ∉ union(complement(d), d)`, contradicting the
claim (and the code's own comment) that the union is `[[0, SUP]]`. -/
theorem domain_complement_bug :
    domain_complement [((5 : Int), (5 : Int)), (10, 10)] =
      [(0, 4), (6, 9), (6, FD_SUP)] ∧
    memD (domain_intersection (domain_complement [((5 : Int), (5 : Int)), (10, 10)])
      [(5, 5), (10, 10)]) 10 ∧
    memD (domain_complement [((5 : Int), (5 : Int)), (10, 10)]) 10 ∧
    domain_complement [((0 : Int), FD_SUP - 1)] = [] ∧
    domain_union (domain_complement [((0 : Int), FD_SUP - 1)]) [(0, FD_SUP - 1)] =
      [(0, FD_SUP - 1)] ∧
    ¬ memD (domain_union (domain_complement [((0 : Int), FD_SUP - 1)])
        [(0, FD_SUP - 1)]) FD_SUP := by
  refine ⟨rfl, ?_, ?_, rfl, rfl, ?_⟩
  · rw [domain_intersection, memD_domain_intersection_help]
    exact Or.inr ⟨by decide, by decide⟩
  · decide
  · decide

/-- Width comparison against the gap parameter of `dom_close_gaps`;
`none` models the JS `Infinity` produced by `Math.min` of no arguments
(every gap is less than `Infinity`). -/
def gap_lt (g : Int) (w : Option Int) : Bool :=
  match w with
  | none => true
  | some v => g < v

/-- `Math.min` over the interval widths `i[1] - i[0] + 1`; `none` is the
`Infinity` of an empty list. -/
def dom_smallest_interval_width (d : List Iv) : Option Int :=
  d.foldr (fun i acc =>
    match acc with
    | none => some (i.2 - i.1 + 1)
    | some v => some (min (i.2 - i.1 + 1) v)) none

/-- The loop of `dom_close_gaps`: merge `prev` and `next` into
`[prev.lo, next.hi]` whenever `next[0] - prev[1] < gap`. -/
def close_gaps_loop (gap : Option Int) (prev : Iv) : List Iv → List Iv
  | [] => [prev]
  | next :: rest =>
    if gap_lt (next.1 - prev.2) gap then close_gaps_loop gap (prev.1, next.2) rest
    else prev :: close_gaps_loop gap next rest

/-- `dom_close_gaps`: closes all gaps smaller than `gap`. -/
def dom_close_gaps (d : List Iv) (gap : Option Int) : List Iv :=
  match d with
  | [] => []
  | h :: t => close_gaps_loop gap h t

theorem close_gaps_loop_length (gap : Option Int) (l : List Iv) (p : Iv) :
    (close_gaps_loop gap p l).length ≤ l.length + 1 := by
  induction l generalizing p with
  | nil => simp [close_gaps_loop]
  | cons next rest ih =>
    rw [close_gaps_loop]
    split
    · exact le_trans (ih _) (by simp)
    · simpa using ih next

theorem dom_close_gaps_length (d : List Iv) (gap : Option Int) :
    (dom_close_gaps d gap).length ≤ d.length := by
  match d with
  | [] => simp [dom_close_gaps]
  | h :: t => simpa [dom_close_gaps] using close_gaps_loop_length gap t h

/-- `dom_close_gaps2`: alternately close the gaps of each domain using the
smallest interval width of the other, until a pass closes nothing.  The
source loops while `change > 0` where
`change = (d1.length - e1.length) + (d2.length - e2.length)`; since
`dom_close_gaps` never lengthens a domain (`dom_close_gaps_length`),
that is equivalent to the length test used here. -/
def dom_close_gaps2 (d1 d2 : List Iv) : List Iv × List Iv :=
  let e1 := dom_close_gaps d1 (dom_smallest_interval_width d2)
  let e2 := dom_close_gaps d2 (dom_smallest_interval_width e1)
  if _h : e1.length + e2.length < d1.length + d2.length then dom_close_gaps2 e1 e2
  else (e1, e2)
termination_by d1.length + d2.length

/-- `dom_plus`: close gaps in both operands, then add all interval pairs
with the bounds clamped to `FD_SUP`, and canonicalize. -/
def dom_plus (d1 d2 : List Iv) : List Iv :=
  simplify_domain ((dom_close_gaps2 d1 d2).1.flatMap fun i1 =>
    (dom_close_gaps2 d1 d2).2.map fun i2 =>
      (min FD_SUP (i1.1 + i2.1), min FD_SUP (i1.2 + i2.2)))

/-- `dom_minus`: like `dom_plus` with pairwise interval subtraction;
pairs whose upper bound would be negative are dropped and lower bounds
are clamped to `0`. -/
def dom_minus (d1 d2 : List Iv) : List Iv :=
  simplify_domain ((dom_close_gaps2 d1 d2).1.flatMap fun i1 =>
    (dom_close_gaps2 d1 d2).2.filterMap fun i2 =>
      if 0 ≤ i1.2 - i2.1 then some (max 0 (i1.1 - i2.2), i1.2 - i2.1) else none)

/-- A canonical domain as the specification defines it: sorted, pairwise
separated intervals (`hi + 1 < next lo`), each non-empty and within
`[0, FD_SUP]`. -/
def is_canonical (d : List Iv) : Prop :=
  List.Chain' (fun a b : Iv => a.2 + 1 < b.1) d ∧
  ∀ iv ∈ d, 0 ≤ iv.1 ∧ iv.1 ≤ iv.2 ∧ iv.2 ≤ FD_SUP

/-- The weaker structural invariant actually needed by the `dom_plus`
proof and preserved by gap closing: separated chain and non-empty
intervals. -/
def good_dom (d : List Iv) : Prop :=
  List.Chain' (fun a b : Iv => a.2 < b.1) d ∧ ∀ iv ∈ d, iv.1 ≤ iv.2

theorem good_dom_of_canonical {d : List Iv} (h : is_canonical d) : good_dom d :=
  ⟨h.1.imp (fun hab => by omega), fun iv hiv => (h.2 iv hiv).2.1⟩

theorem close_gaps_loop_head_lo (g : Option Int) (l : List Iv) (p : Iv) :
    ∃ hi t', close_gaps_loop g p l = (p.1, hi) :: t' := by
  induction l generalizing p with
  | nil => exact ⟨p.2, [], rfl⟩
  | cons next rest ih =>
    rw [close_gaps_loop]
    split
    · exact ih (p.1, next.2)
    · exact ⟨p.2, close_gaps_loop g next rest, rfl⟩

theorem close_gaps_loop_good (g : Option Int) (l : List Iv) (p : Iv)
    (hp : p.1 ≤ p.2) (hl : ∀ q ∈ l, q.1 ≤ q.2)
    (hc : List.Chain' (fun a b : Iv => a.2 < b.1) (p :: l)) :
    List.Chain' (fun a b : Iv => a.2 < b.1) (close_gaps_loop g p l) ∧
    ∀ iv ∈ close_gaps_loop g p l, iv.1 ≤ iv.2 := by
  induction l generalizing p with
  | nil =>
    rw [close_gaps_loop]
    exact ⟨by simp, by simpa using hp⟩
  | cons next rest ih =>
    have hpn : p.2 < next.1 := (List.chain'_cons.1 hc).1
    have hcr : List.Chain' (fun a b : Iv => a.2 < b.1) (next :: rest) :=
      (List.chain'_cons.1 hc).2
    have hnn : next.1 ≤ next.2 := hl next (by simp)
    have hlr : ∀ q ∈ rest, q.1 ≤ q.2 := fun q hq => hl q (by simp [hq])
    rw [close_gaps_loop]
    split
    · refine ih (p.1, next.2) (by omega) hlr ?_
      rcases List.chain'_cons'.1 hcr with ⟨hh, ht⟩
      exact List.chain'_cons'.2 ⟨fun y hy => hh y hy, ht⟩
    · obtain ⟨hch, hne⟩ := ih next hnn hlr hcr
      obtain ⟨hi, t', heq⟩ := close_gaps_loop_head_lo g rest next
      constructor
      · rw [heq] at hch ⊢
        exact List.chain'_cons.2 ⟨by simpa using hpn, hch⟩
      · intro iv hiv
        rcases List.mem_cons.1 hiv with rfl | hm
        · exact hp
        · exact hne iv hm

theorem dom_close_gaps_good (d : List Iv) (g : Option Int) (h : good_dom d) :
    good_dom (dom_close_gaps d g) := by
  match d with
  | [] => exact ⟨by simp [dom_close_gaps], by simp [dom_close_gaps]⟩
  | p :: l =>
    rw [dom_close_gaps]
    exact close_gaps_loop_good g l p (h.2 p (by simp))
      (fun q hq => h.2 q (by simp [hq])) h.1

theorem memD_close_gaps_loop_of (g : Option Int) (l : List Iv) (p : Iv)
    (hp : p.1 ≤ p.2) (hl : ∀ q ∈ l, q.1 ≤ q.2)
    (hc : List.Chain' (fun a b : Iv => a.2 < b.1) (p :: l)) (x : Int)
    (hx : memD (p :: l) x) : memD (close_gaps_loop g p l) x := by
  induction l generalizing p with
  | nil =>
    rw [close_gaps_loop]
    exact hx
  | cons next rest ih =>
    have hpn : p.2 < next.1 := (List.chain'_cons.1 hc).1
    have hcr : List.Chain' (fun a b : Iv => a.2 < b.1) (next :: rest) :=
      (List.chain'_cons.1 hc).2
    have hnn : next.1 ≤ next.2 := hl next (by simp)
    have hlr : ∀ q ∈ rest, q.1 ≤ q.2 := fun q hq => hl q (by simp [hq])
    rw [close_gaps_loop]
    split
    · refine ih (p.1, next.2) (by omega) hlr ?_ ?_
      · rcases List.chain'_cons'.1 hcr with ⟨hh, ht⟩
        exact List.chain'_cons'.2 ⟨fun y hy => hh y hy, ht⟩
      · simp only [memD_cons] at hx ⊢
        rcases hx with h | h | h
        · exact Or.inl ⟨h.1, by omega⟩
        · exact Or.inl ⟨by omega, by omega⟩
        · exact Or.inr h
    · simp only [memD_cons] at hx ⊢
      rcases hx with h | h
      · exact Or.inl h
      · exact Or.inr (ih next hnn hlr hcr ((memD_cons next rest x).2 h))

/-- A point lying in a too-small gap of `D`: strictly between the upper
bound of a non-empty interval `p ∈ D` and the lower bound of a non-empty
interval `q ∈ D`, with `q.lo - p.hi` below the gap parameter. -/
def GapW (D : List Iv) (g : Option Int) (z : Int) : Prop :=
  ∃ p q, p ∈ D ∧ q ∈ D ∧ p.1 ≤ p.2 ∧ q.1 ≤ q.2 ∧ p.2 < z ∧ z < q.1 ∧
    gap_lt (q.1 - p.2) g = true

theorem close_gaps_loop_mem_cases (D : List Iv) (g : Option Int)
    (l : List Iv) (p : Iv)
    (hl : ∀ q ∈ l, q ∈ D ∧ q.1 ≤ q.2)
    (Hp : ∀ z, p.1 ≤ z → z ≤ p.2 → memD D z ∨ GapW D g z)
    (Hp2 : ∃ q ∈ D, q.2 = p.2 ∧ q.1 ≤ q.2)
    (x : Int) (hx : memD (close_gaps_loop g p l) x) :
    memD D x ∨ GapW D g x := by
  induction l generalizing p with
  | nil =>
    rw [close_gaps_loop] at hx
    simp only [memD_cons, memD_nil, or_false] at hx
    exact Hp x hx.1 hx.2
  | cons next rest ih =>
    have hnD : next ∈ D := (hl next (by simp)).1
    have hnn : next.1 ≤ next.2 := (hl next (by simp)).2
    have hlr : ∀ q ∈ rest, q ∈ D ∧ q.1 ≤ q.2 := fun q hq => hl q (by simp [hq])
    rw [close_gaps_loop] at hx
    split at hx
    · rename_i hgap
      refine ih (p.1, next.2) hlr ?_ ⟨next, hnD, rfl, hnn⟩ hx
      intro z hz1 hz2
      simp only at hz1 hz2
      rcases lt_trichotomy z next.1 with hz | hz | hz
      · by_cases hzp : z ≤ p.2
        · exact Hp z hz1 hzp
        · right
          obtain ⟨q, hqD, hq2, hqne⟩ := Hp2
          exact ⟨q, next, hqD, hnD, hqne, hnn, by omega, hz, by rw [hq2]; exact hgap⟩
      · exact Or.inl ⟨next, hnD, by omega, by omega⟩
      · exact Or.inl ⟨next, hnD, by omega, by omega⟩
    · simp only [memD_cons] at hx
      rcases hx with h | h
      · exact Hp x h.1 h.2
      · exact ih next hlr
          (fun z hz1 hz2 => Or.inl ⟨next, hnD, hz1, hz2⟩)
          ⟨next, hnD, rfl, hnn⟩ h

theorem memD_dom_close_gaps (d : List Iv) (g : Option Int) (h : good_dom d)
    (x : Int) :
    (memD d x → memD (dom_close_gaps d g) x) ∧
    (memD (dom_close_gaps d g) x → memD d x ∨ GapW d g x) := by
  match d with
  | [] => exact ⟨fun hx => by simpa using hx, fun hx => by simp [dom_close_gaps] at hx⟩
  | p :: l =>
    constructor
    · intro hx
      rw [dom_close_gaps]
      exact memD_close_gaps_loop_of g l p (h.2 p (by simp))
        (fun q hq => h.2 q (by simp [hq])) h.1 x hx
    · intro hx
      rw [dom_close_gaps] at hx
      refine close_gaps_loop_mem_cases (p :: l) g l p
        (fun q hq => ⟨by simp [hq], h.2 q (by simp [hq])⟩) ?_
        ⟨p, by simp, rfl, h.2 p (by simp)⟩ x hx
      intro z hz1 hz2
      exact Or.inl ⟨p, by simp, hz1, hz2⟩

theorem dom_smallest_interval_width_le (d : List Iv) (iv : Iv) (hiv : iv ∈ d) :
    ∃ w, dom_smallest_interval_width d = some w ∧ w ≤ iv.2 - iv.1 + 1 := by
  induction d with
  | nil => cases hiv
  | cons i rest ih =>
    rw [dom_smallest_interval_width, List.foldr_cons]
    have hfold : (rest.foldr (fun i acc =>
        match acc with
        | none => some (i.2 - i.1 + 1)
        | some v => some (min (i.2 - i.1 + 1) v)) none) =
        dom_smallest_interval_width rest := rfl
    rw [hfold]
    rcases List.mem_cons.1 hiv with rfl | hm
    · rcases hrest : dom_smallest_interval_width rest with _ | w
      · exact ⟨iv.2 - iv.1 + 1, rfl, le_refl _⟩
      · exact ⟨min (iv.2 - iv.1 + 1) w, rfl, min_le_left _ _⟩
    · obtain ⟨w, hw, hle⟩ := ih hm
      rw [hw]
      exact ⟨min (i.2 - i.1 + 1) w, rfl, le_trans (min_le_right _ _) hle⟩

/-- The set of raw pairwise sums of two domains. -/
def RawSum (a b : List Iv) (s : Int) : Prop :=
  ∃ x y, memD a x ∧ memD b y ∧ s = x + y

theorem rawSum_comm (a b : List Iv) (s : Int) : RawSum a b s ↔ RawSum b a s := by
  unfold RawSum
  constructor
  · rintro ⟨x, y, hx, hy, rfl⟩; exact ⟨y, x, hy, hx, by omega⟩
  · rintro ⟨x, y, hx, hy, rfl⟩; exact ⟨y, x, hy, hx, by omega⟩

/-- Closing the gaps of the left operand with the smallest interval width
of the right operand does not change the set of pairwise sums. -/
theorem rawSum_close_left (d1 d2 : List Iv) (h1 : good_dom d1)
    (h2 : ∀ iv ∈ d2, iv.1 ≤ iv.2) (s : Int) :
    RawSum (dom_close_gaps d1 (dom_smallest_interval_width d2)) d2 s ↔
    RawSum d1 d2 s := by
  constructor
  · rintro ⟨x, y, hx, hy, rfl⟩
    rcases (memD_dom_close_gaps d1 (dom_smallest_interval_width d2) h1 x).2 hx with
      hmem | ⟨p, q, hpD, hqD, hpne, hqne, hpx, hxq, hgap⟩
    · exact ⟨x, y, hmem, hy, rfl⟩
    · obtain ⟨iv2, hiv2, hy1, hy2⟩ := hy
      obtain ⟨w, hw, hwle⟩ := dom_smallest_interval_width_le d2 iv2 hiv2
      rw [hw] at hgap
      have hglt : q.1 - p.2 < w := by
        simpa [gap_lt] using hgap
      by_cases hcase : y + (x - p.2) ≤ iv2.2
      · exact ⟨p.2, y + (x - p.2), ⟨p, hpD, hpne, le_refl _⟩,
          ⟨iv2, hiv2, by omega, hcase⟩, by omega⟩
      · exact ⟨q.1, y - (q.1 - x), ⟨q, hqD, le_refl _, hqne⟩,
          ⟨iv2, hiv2, by omega, by omega⟩, by omega⟩
  · rintro ⟨x, y, hx, hy, rfl⟩
    exact ⟨x, y, (memD_dom_close_gaps d1 _ h1 x).1 hx, hy, rfl⟩

theorem rawSum_close_right (d1 d2 : List Iv) (h2 : good_dom d2)
    (h1 : ∀ iv ∈ d1, iv.1 ≤ iv.2) (s : Int) :
    RawSum d1 (dom_close_gaps d2 (dom_smallest_interval_width d1)) s ↔
    RawSum d1 d2 s := by
  rw [rawSum_comm, rawSum_close_left d2 d1 h2 h1, rawSum_comm]

/-- `dom_close_gaps2` preserves the structural invariant of both domains
and the set of pairwise sums. -/
theorem dom_close_gaps2_spec (d1 d2 : List Iv) (h1 : good_dom d1)
    (h2 : good_dom d2) :
    good_dom (dom_close_gaps2 d1 d2).1 ∧ good_dom (dom_close_gaps2 d1 d2).2 ∧
    ∀ s, RawSum (dom_close_gaps2 d1 d2).1 (dom_close_gaps2 d1 d2).2 s ↔
      RawSum d1 d2 s := by
  induction d1, d2 using dom_close_gaps2.induct with
  | case1 d1 d2 e1 e2 hlt ih =>
    have he1 : good_dom e1 := dom_close_gaps_good d1 _ h1
    have he2 : good_dom e2 := dom_close_gaps_good d2 _ h2
    obtain ⟨g1, g2, hsum⟩ := ih he1 he2
    rw [dom_close_gaps2]
    simp only [dif_pos hlt]
    refine ⟨g1, g2, fun s => ?_⟩
    rw [hsum s]
    rw [rawSum_close_right e1 d2 h2 he1.2 s, rawSum_close_left d1 d2 h1 h2.2 s]
  | case2 d1 d2 e1 e2 hlt =>
    have he1 : good_dom e1 := dom_close_gaps_good d1 _ h1
    have he2 : good_dom e2 := dom_close_gaps_good d2 _ h2
    rw [dom_close_gaps2]
    simp only [dif_neg hlt]
    refine ⟨he1, he2, fun s => ?_⟩
    rw [rawSum_close_right e1 d2 h2 he1.2 s, rawSum_close_left d1 d2 h1 h2.2 s]

theorem memD_flatMap_pairs (e1 e2 : List Iv) (n : Int) :
    memD (e1.flatMap fun i1 => e2.map fun i2 =>
      ((min FD_SUP (i1.1 + i2.1), min FD_SUP (i1.2 + i2.2)) : Iv)) n ↔
    ∃ i1 ∈ e1, ∃ i2 ∈ e2,
      min FD_SUP (i1.1 + i2.1) ≤ n ∧ n ≤ min FD_SUP (i1.2 + i2.2) := by
  unfold memD
  constructor
  · rintro ⟨iv, hm, hb⟩
    rcases List.mem_flatMap.1 hm with ⟨i1, hi1, hmap⟩
    rcases List.mem_map.1 hmap with ⟨i2, hi2, rfl⟩
    exact ⟨i1, hi1, i2, hi2, hb⟩
  · rintro ⟨i1, hi1, i2, hi2, hb⟩
    exact ⟨_, List.mem_flatMap.2 ⟨i1, hi1, List.mem_map.2 ⟨i2, hi2, rfl⟩⟩, hb⟩

/-- Image of the sums of two non-empty intervals under clamping at
`FD_SUP`: exactly the clamped interval of the clamped endpoint sums. -/
theorem clamp_pair (a b c d n : Int) (hab : a ≤ b) (hcd : c ≤ d) :
    (min FD_SUP (a + c) ≤ n ∧ n ≤ min FD_SUP (b + d)) ↔
    ∃ x y, a ≤ x ∧ x ≤ b ∧ c ≤ y ∧ y ≤ d ∧ n = min (x + y) FD_SUP := by
  constructor
  · rintro ⟨h1, h2⟩
    by_cases hac : a + c ≤ n
    · exact ⟨max a (n - d), n - max a (n - d), by omega, by omega, by omega,
        by omega, by omega⟩
    · exact ⟨a, c, le_refl a, hab, le_refl c, hcd, by omega⟩
  · rintro ⟨x, y, hx1, hx2, hy1, hy2, rfl⟩
    omega

/-- C2: for canonical operands, `dom_plus` denotes exactly the set of
pairwise sums clamped to `FD_SUP`:
`{ min(x + y, SUP) | x ∈ a, y ∈ b }` — the gap-closing pre-simplification
`dom_close_gaps2` changes neither direction of the inclusion. -/
theorem dom_plus_correct (a b : List Iv) (ha : is_canonical a)
    (hb : is_canonical b) (n : Int) :
    memD (dom_plus a b) n ↔
      ∃ x y, memD a x ∧ memD b y ∧ n = min (x + y) FD_SUP := by
  obtain ⟨g1, g2, hsum⟩ :=
    dom_close_gaps2_spec a b (good_dom_of_canonical ha) (good_dom_of_canonical hb)
  rw [dom_plus, memD_simplify_domain, memD_flatMap_pairs]
  constructor
  · rintro ⟨i1, hi1, i2, hi2, hbounds⟩
    obtain ⟨x, y, hx1, hx2, hy1, hy2, rfl⟩ :=
      (clamp_pair i1.1 i1.2 i2.1 i2.2 n (g1.2 i1 hi1) (g2.2 i2 hi2)).1 hbounds
    obtain ⟨x', y', hx', hy', hs⟩ := (hsum (x + y)).1
      ⟨x, y, ⟨i1, hi1, hx1, hx2⟩, ⟨i2, hi2, hy1, hy2⟩, rfl⟩
    exact ⟨x', y', hx', hy', by rw [hs]⟩
  · rintro ⟨x, y, hx, hy, rfl⟩
    obtain ⟨x', y', hx', hy', hs⟩ := (hsum (x + y)).2 ⟨x, y, hx, hy, rfl⟩
    obtain ⟨i1, hi1, hb1⟩ := hx'
    obtain ⟨i2, hi2, hb2⟩ := hy'
    refine ⟨i1, hi1, i2, hi2,
      (clamp_pair i1.1 i1.2 i2.1 i2.2 _ (g1.2 i1 hi1) (g2.2 i2 hi2)).2
        ⟨x', y', hb1.1, hb1.2, hb2.1, hb2.2, by rw [hs]⟩⟩

/-- C2 witness: `dom_plus` applied to the canonical domains
`[[1,2],[10,10]]` and `[[0,1]]`. -/
theorem dom_plus_correct_witness :
    is_canonical [((1 : Int), (2 : Int)), (10, 10)] ∧
    is_canonical [((0 : Int), (1 : Int))] ∧
    (memD (dom_plus [((1 : Int), (2 : Int)), (10, 10)] [((0 : Int), (1 : Int))]) 11 ↔
      ∃ x y, memD [((1 : Int), (2 : Int)), (10, 10)] x ∧
        memD [((0 : Int), (1 : Int))] y ∧ (11 : Int) = min (x + y) FD_SUP) := by
  have hc1 : is_canonical [((1 : Int), (2 : Int)), (10, 10)] := by
    constructor
    · norm_num [List.chain'_cons, List.chain'_singleton]
    · intro iv hiv
      simp only [List.mem_cons, List.not_mem_nil, or_false] at hiv
      rcases hiv with rfl | rfl <;> norm_num [FD_SUP]
  have hc2 : is_canonical [((0 : Int), (1 : Int))] := by
    constructor
    · simp
    · intro iv hiv
      simp only [List.mem_cons, List.not_mem_nil, or_false] at hiv
      subst hiv
      norm_num [FD_SUP]
  exact ⟨hc1, hc2,
    dom_plus_correct [((1 : Int), (2 : Int)), (10, 10)] [((0 : Int), (1 : Int))]
      hc1 hc2 11⟩

/-! ## Computation spaces: variables, propagators, posting interface -/

/-- Variable names: user-supplied strings or engine-generated numeric
temporary identifiers. -/
inductive FDName
  | str (s : String)
  | num (n : Nat)
deriving DecidableEq, Repr

/-- An `FDVar`: current domain plus the revision counter `step`. -/
structure FDVarR where
  dom : List Iv
  step : Nat
deriving DecidableEq, Repr

/-- `domain_equal`: element-wise comparison of two interval lists. -/
def domain_equal (d1 d2 : List Iv) : Bool := d1 = d2

/-- The `FDVar` constructor: `this.dom = dom || [[0, FD_SUP]]`, revision 0
(`none` models an omitted argument). -/
def FDVar_new (dom : Option (List Iv)) : FDVarR :=
  ⟨dom.getD [(0, FD_SUP)], 0⟩

/-- `FDVar.set_dom`: replace the domain and bump the revision exactly when
the new domain differs (by `domain_equal`). -/
def set_dom (v : FDVarR) (d : List Iv) : FDVarR :=
  if domain_equal v.dom d then v else ⟨d, v.step + 1⟩

/-- The variable store of a space (`this.vars`), as an association list. -/
abbrev Vars := List (FDName × FDVarR)

def lookupVar (vs : Vars) (n : FDName) : Option FDVarR :=
  match vs with
  | [] => none
  | (m, v) :: rest => if m = n then some v else lookupVar rest n

def setVar (vs : Vars) (n : FDName) (v : FDVarR) : Vars :=
  match vs with
  | [] => [(n, v)]
  | (m, w) :: rest => if m = n then (m, v) :: rest else (m, w) :: setVar rest n v

theorem lookupVar_setVar_self (vs : Vars) (n : FDName) (v : FDVarR) :
    lookupVar (setVar vs n v) n = some v := by
  induction vs with
  | nil => simp [setVar, lookupVar]
  | cons p rest ih =>
    rw [setVar]
    split
    · rename_i h
      rw [lookupVar, if_pos h]
    · rename_i h
      rw [lookupVar, if_neg h]
      exact ih

theorem lookupVar_setVar_other (vs : Vars) (n m : FDName) (v : FDVarR)
    (hnm : n ≠ m) : lookupVar (setVar vs n v) m = lookupVar vs m := by
  induction vs with
  | nil => simp [setVar, lookupVar, hnm]
  | cons p rest ih =>
    rw [setVar]
    split
    · rename_i h
      rw [lookupVar, lookupVar]
      subst h
      rw [if_neg hnm, if_neg hnm]
    · rw [lookupVar, lookupVar]
      split
      · rfl
      · exact ih

/-- The two interval arithmetic operations used by the `times` ring
propagators.  `dom_times` clamps products at `FD_SUP`. -/
def dom_times (d1 d2 : List Iv) : List Iv :=
  simplify_domain (d1.flatMap fun i1 => d2.map fun i2 =>
    (min FD_SUP (i1.1 * i2.1), min FD_SUP (i1.2 * i2.2)))

/-- `dom_divby`.  The source divides with JS number (fractional) division
and keeps the unrounded bounds; no claim depends on the fractional
values, and this embedding uses truncating integer division (which
agrees with the source whenever the quotients are exact). -/
def dom_divby (d1 d2 : List Iv) : List Iv :=
  simplify_domain (d1.flatMap fun i1 => d2.filterMap fun i2 =>
    if 0 < i2.2 then
      (if 0 ≤ (if 0 < i2.1 then i1.2 / i2.1 else FD_SUP) then
        some (max 0 (i1.1 / i2.2), if 0 < i2.1 then i1.2 / i2.1 else FD_SUP)
      else none)
    else none)

/-- Ring operation selector: `plus` uses `(dom_plus, dom_minus)`, `times`
uses `(dom_times, dom_divby)`. -/
inductive RingOp
  | add
  | mul
deriving DecidableEq, Repr

def ring_plusop : RingOp → List Iv → List Iv → List Iv
  | .add => dom_plus
  | .mul => dom_times

def ring_minusop : RingOp → List Iv → List Iv → List Iv
  | .add => dom_minus
  | .mul => dom_divby

/-- The kinds of propagators this embedding interprets (the reified
composite propagator is not modelled).  The three ring kinds are the
three directed propagators posted by `ring` (`plus` / `times`). -/
inductive PKind
  | peq
  | plt
  | plte
  | pneq
  | pscale_mul (k : Int)
  | pscale_div (k : Int)
  | pring_fwd (op : RingOp)
  | pring_bwd1 (op : RingOp)
  | pring_bwd2 (op : RingOp)
deriving DecidableEq, Repr

/-- A propagator as stored in a space: its kind, variable lists, and the
mutable `last_step` / `solved` state.  `initprop` sets `last_step = -1`;
variables are resolved by name at step time. -/
structure PropR where
  kind : PKind
  allvars : List FDName
  depvars : List FDName
  last_step : Int
  solved : Bool
deriving DecidableEq, Repr

/-- A computation space: variable store and propagator vector.  (The
brancher queue and child-accounting counters play no part in the claims
proved here.) -/
structure SpaceR where
  vars : Vars
  props : List PropR
deriving DecidableEq, Repr

/-- The class-global temporary-name counter `Space._temp_count`. -/
structure World where
  temp_count : Nat
deriving DecidableEq, Repr

/-- Exceptions: the propagation failure token `'fail'` and the usage
error strings thrown by the posting interface. -/
inductive FDExc
  | fail
  | usage (msg : String)
deriving DecidableEq, Repr

/-- Return value of a posting method: the space itself (`this`) or, in
functional style, a variable name. -/
inductive FDRet
  | rspace
  | rname (n : FDName)
deriving DecidableEq, Repr

/-- The name carried by a functional-style return. -/
def rname_of : FDRet → FDName
  | .rname n => n
  | .rspace => FDName.num 0

/-- Result of a posting call: the (class-global) world, the space, and
either a return value or the exception that was thrown.  The world and
space parts always reflect the mutations made before a throw. -/
abbrev PostRes := World × SpaceR × Except FDExc FDRet

/-- `Space.decl` (single-name form; the collection form recurses
element-wise and is not needed by the claims). -/
def decl (s : SpaceR) (name : FDName) (dom : Option (List Iv)) : SpaceR :=
  match lookupVar s.vars name with
  | some f =>
    match dom with
    | some d => { s with vars := setVar s.vars name (set_dom f d) }
    | none => s
  | none => { s with vars := setVar s.vars name (FDVar_new dom) }

/-- `Space.num`: declare with a singleton domain. -/
def num (s : SpaceR) (name : FDName) (n : Int) : SpaceR :=
  decl s name (some [(n, n)])

/-- `Space.temp`: bump the class-global counter, declare the numeric
name, return it. -/
def temp (w : World) (s : SpaceR) (dom : Option (List Iv)) :
    World × SpaceR × Nat :=
  (⟨w.temp_count + 1⟩, decl s (FDName.num (w.temp_count + 1)) dom,
    w.temp_count + 1)

/-- `Space.temps`: `N` fresh temporaries. -/
def temps (w : World) (s : SpaceR) (n : Nat) (dom : Option (List Iv)) :
    World × SpaceR × List Nat :=
  match n with
  | 0 => (w, s, [])
  | n + 1 =>
    let r1 := temp w s dom
    let r2 := temps r1.1 r1.2.1 n dom
    (r2.1, r2.2.1, r1.2.2 :: r2.2.2)

/-- `Space.konst`: a temporary with a singleton domain; values outside
`[0, FD_SUP]` raise a usage error before any mutation. -/
def konst (w : World) (s : SpaceR) (val : Int) :
    World × SpaceR × Except FDExc FDName :=
  if val < 0 ∨ val > FD_SUP then
    (w, s, .error (.usage "FD.space.konst: Value out of valid range"))
  else
    let r := temp w s (some [(val, val)])
    (r.1, r.2.1, .ok (FDName.num r.2.2))

/-- `Space.newprop` composed with `initprop`: append the propagator with
`last_step = -1` and the solved flag clear. -/
def newprop (s : SpaceR) (kind : PKind) (allvars depvars : List FDName) :
    SpaceR :=
  { s with props := s.props ++ [⟨kind, allvars, depvars, -1, false⟩] }

/-- The propagator-adding part of `Space.eq`. -/
def eq_post (s : SpaceR) (v1 v2 : FDName) : SpaceR :=
  newprop s .peq [v1, v2] [v1, v2]

/-- `Space.eq`: with `v2name` omitted it returns `v1name` (functional
style), otherwise it posts the equality propagator. -/
def eq (w : World) (s : SpaceR) (v1 : FDName) (v2 : Option FDName) :
    PostRes :=
  match v2 with
  | none => (w, s, .ok (.rname v1))
  | some v2n => (w, eq_post s v1 v2n, .ok .rspace)

/-- `Space.lt`. -/
def lt (w : World) (s : SpaceR) (v1 v2 : FDName) : PostRes :=
  (w, newprop s .plt [v1, v2] [v1, v2], .ok .rspace)

/-- `Space.gt` posts `lt` with the arguments swapped. -/
def gt (w : World) (s : SpaceR) (v1 v2 : FDName) : PostRes :=
  lt w s v2 v1

/-- `Space.lte`. -/
def lte (w : World) (s : SpaceR) (v1 v2 : FDName) : PostRes :=
  (w, newprop s .plte [v1, v2] [v1, v2], .ok .rspace)

/-- `Space.gte` posts `lte` with the arguments swapped. -/
def gte (w : World) (s : SpaceR) (v1 v2 : FDName) : PostRes :=
  lte w s v2 v1

/-- `Space.neq`. -/
def neq (w : World) (s : SpaceR) (v1 v2 : FDName) : PostRes :=
  (w, newprop s .pneq [v1, v2] [v1, v2], .ok .rspace)

/-- `Space.distinct`: `neq` for every pair `(vars[i], vars[j])`, `j < i`. -/
def distinct (w : World) (s : SpaceR) (vars : List FDName) : PostRes :=
  (w, distinct_loop s [] vars, .ok .rspace)
where
  distinct_loop (s : SpaceR) (earlier : List FDName) : List FDName → SpaceR
    | [] => s
    | v :: rest =>
      distinct_loop (earlier.foldl (fun s' e => newprop s' .pneq [v, e] [v, e]) s)
        (earlier ++ [v]) rest

/-- The three directed propagators posted by `ring`. -/
def ring_post (s : SpaceR) (op : RingOp) (v1 v2 sumname : FDName) : SpaceR :=
  newprop
    (newprop
      (newprop s (.pring_fwd op) [v1, v2, sumname] [v1, v2])
      (.pring_bwd1 op) [v1, v2, sumname] [v2, sumname])
    (.pring_bwd2 op) [v1, v2, sumname] [v1, sumname]

/-- `ring`: allocate the result temporary when it is not supplied, post
the three directed propagators, and return the space or the temporary's
name. -/
def ring (w : World) (s : SpaceR) (op : RingOp) (v1 v2 : FDName)
    (sumname : Option FDName) : PostRes :=
  match sumname with
  | some sn => (w, ring_post s op v1 v2 sn, .ok .rspace)
  | none =>
    let r := temp w s none
    (r.1, ring_post r.2.1 op v1 v2 (FDName.num r.2.2),
      .ok (.rname (FDName.num r.2.2)))

/-- `Space.plus`. -/
def plus (w : World) (s : SpaceR) (v1 v2 : FDName)
    (sumname : Option FDName) : PostRes :=
  ring w s .add v1 v2 sumname

/-- `Space.times`. -/
def times (w : World) (s : SpaceR) (v1 v2 : FDName)
    (prodname : Option FDName) : PostRes :=
  ring w s .mul v1 v2 prodname

/-- The two directed propagators posted by `Space.scale` for `k > 1`. -/
def scale_post (s : SpaceR) (k : Int) (v prodname : FDName) : SpaceR :=
  newprop (newprop s (.pscale_mul k) [v, prodname] [v])
    (.pscale_div k) [v, prodname] [prodname]

/-- `Space.scale`: the degenerate factors `1` and `0` delegate to `eq`
(with a `[[0,0]]` temporary for `0`), negative factors raise a usage
error before any mutation, and factors `> 1` post the two directed
scaling propagators. -/
def scale (w : World) (s : SpaceR) (factor : Int) (v : FDName)
    (prodname : Option FDName) : PostRes :=
  if factor = 1 then eq w s v prodname
  else if factor = 0 then
    let r := temp w s (some [(0, 0)])
    eq r.1 r.2.1 (FDName.num r.2.2) prodname
  else if factor < 0 then
    (w, s, .error (.usage "scale: negative factors not supported."))
  else
    match prodname with
    | some pn => (w, scale_post s factor v pn, .ok .rspace)
    | none =>
      let r := temp w s none
      (r.1, scale_post r.2.1 factor v (FDName.num r.2.2),
        .ok (.rname (FDName.num r.2.2)))

/-- Exception plumbing shared by the composite posting methods: a thrown
exception propagates to the caller while the world/space mutations made
before the throw are kept, exactly as JS exceptions unwind. -/
def bindPost {α β : Type} (r : World × SpaceR × Except FDExc α)
    (f : World → SpaceR → α → World × SpaceR × Except FDExc β) :
    World × SpaceR × Except FDExc β :=
  match r with
  | (w, s, .error e) => (w, s, .error e)
  | (w, s, .ok v) => f w s v

/-- `Space.times_plus`: `plus(scale(k1, v1), scale(k2, v2), resultname)`,
evaluating the two functional-style `scale` calls left to right. -/
def times_plus (w : World) (s : SpaceR) (k1 : Int) (v1 : FDName) (k2 : Int)
    (v2 : FDName) (resultname : Option FDName) : PostRes :=
  bindPost (scale w s k1 v1 none) (fun w1 s1 r1 =>
    bindPost (scale w1 s1 k2 v2 none) (fun w2 s2 r2 =>
      plus w2 s2 (rname_of r1) (rname_of r2) resultname))


/-- `Space.sum`: allocate the result temporary first when it is omitted,
then: empty input raises a usage error; one summand posts `eq`; two post
`plus`; otherwise split at `length >> 1`, sum each half into temporaries
(the first half is `vars[0]` itself when it is a single variable) and
post `plus` of the halves. -/
def sum (w : World) (s : SpaceR) (vars : List FDName)
    (resultName : Option FDName) : PostRes :=
  match resultName with
  | some rn => sum_body w s vars rn .rspace
  | none =>
    let r := temp w s none
    sum_body r.1 r.2.1 vars (FDName.num r.2.2) (.rname (FDName.num r.2.2))
where
  sum_body (w : World) (s : SpaceR) (vars : List FDName) (rn : FDName)
      (ret : FDRet) : PostRes :=
    match vars with
    | [] => (w, s, .error (.usage "Space.sum: Nothing to sum!"))
    | [v] => (w, eq_post s v rn, .ok ret)
    | [v1, v2] => (w, ring_post s .add v1 v2 rn, .ok ret)
    | v1 :: v2 :: v3 :: vs =>
      bindPost (sum_body (temp w s none).1 (temp w s none).2.1
          ((v1 :: v2 :: v3 :: vs).drop ((v1 :: v2 :: v3 :: vs).length / 2))
          (FDName.num (temp w s none).2.2) .rspace)
        (fun w2 s2 _ =>
          if (v1 :: v2 :: v3 :: vs).length / 2 > 1 then
            bindPost (sum_body (temp w2 s2 none).1 (temp w2 s2 none).2.1
                ((v1 :: v2 :: v3 :: vs).take ((v1 :: v2 :: v3 :: vs).length / 2))
                (FDName.num (temp w2 s2 none).2.2) .rspace)
              (fun w4 s4 _ =>
                (w4, ring_post s4 .add (FDName.num (temp w2 s2 none).2.2)
                  (FDName.num (temp w s none).2.2) rn, .ok ret))
          else
            (w2, ring_post s2 .add v1 (FDName.num (temp w s none).2.2) rn,
              .ok ret))
  termination_by vars.length
  decreasing_by
    all_goals simp [List.length_take, List.length_drop]
    all_goals omega

/-- `Space.product`: same shape as `sum` except that an empty input is a
silent no-op (`case 0: return retval`) and the combining propagator is
`times`. -/
def product (w : World) (s : SpaceR) (vars : List FDName)
    (resultName : Option FDName) : PostRes :=
  match resultName with
  | some rn => product_body w s vars rn .rspace
  | none =>
    let r := temp w s none
    product_body r.1 r.2.1 vars (FDName.num r.2.2) (.rname (FDName.num r.2.2))
where
  product_body (w : World) (s : SpaceR) (vars : List FDName) (rn : FDName)
      (ret : FDRet) : PostRes :=
    match vars with
    | [] => (w, s, .ok ret)
    | [v] => (w, eq_post s v rn, .ok ret)
    | [v1, v2] => (w, ring_post s .mul v1 v2 rn, .ok ret)
    | v1 :: v2 :: v3 :: vs =>
      bindPost (product_body (temp w s none).1 (temp w s none).2.1
          ((v1 :: v2 :: v3 :: vs).drop ((v1 :: v2 :: v3 :: vs).length / 2))
          (FDName.num (temp w s none).2.2) .rspace)
        (fun w2 s2 _ =>
          if (v1 :: v2 :: v3 :: vs).length / 2 > 1 then
            bindPost (product_body (temp w2 s2 none).1 (temp w2 s2 none).2.1
                ((v1 :: v2 :: v3 :: vs).take ((v1 :: v2 :: v3 :: vs).length / 2))
                (FDName.num (temp w2 s2 none).2.2) .rspace)
              (fun w4 s4 _ =>
                (w4, ring_post s4 .mul (FDName.num (temp w2 s2 none).2.2)
                  (FDName.num (temp w s none).2.2) rn, .ok ret))
          else
            (w2, ring_post s2 .mul v1 (FDName.num (temp w s none).2.2) rn,
              .ok ret))
  termination_by vars.length
  decreasing_by
    all_goals simp [List.length_take, List.length_drop]
    all_goals omega

/-- The loop of `Space.wsum`: a fresh temporary and a `scale` propagator
per variable (a negative weight raises from inside `scale`, with the
mutations made so far kept). -/
def wsum_loop (w : World) (s : SpaceR) (pairs : List (Int × FDName))
    (acc : List FDName) : World × SpaceR × Except FDExc (List FDName) :=
  match pairs with
  | [] => (w, s, .ok acc)
  | (k, v) :: rest =>
    bindPost (scale (temp w s none).1 (temp w s none).2.1 k v
        (some (FDName.num (temp w s none).2.2)))
      (fun w2 s2 _ =>
        wsum_loop w2 s2 rest (acc ++ [FDName.num (temp w s none).2.2]))

/-- `Space.wsum`: scale each variable by its weight into a temporary,
then sum the temporaries. -/
def wsum (w : World) (s : SpaceR) (kweights : List Int)
    (vars : List FDName) (resultName : Option FDName) : PostRes :=
  bindPost (wsum_loop w s (kweights.zip vars) [])
    (fun w1 s1 ts => sum w1 s1 ts resultName)

theorem set_dom_dom (v : FDVarR) (d : List Iv) : (set_dom v d).dom = d := by
  unfold set_dom
  split
  · rename_i h
    simpa [domain_equal] using h
  · rfl

/-- C5 (amended): `decl` creates an absent variable with the supplied
domain (default `[[0, FD_SUP]]`), and for an existing variable with a
supplied domain it *replaces* the domain via `set_dom` — the new domain
is `dom` itself, not the intersection with the current domain — bumping
the revision exactly when the domain changed.  Propagators are never
touched. -/
theorem decl_spec (s : SpaceR) (name : FDName) (dom : Option (List Iv)) :
    (lookupVar s.vars name = none →
      lookupVar (decl s name dom).vars name = some ⟨dom.getD [(0, FD_SUP)], 0⟩) ∧
    (∀ f d, lookupVar s.vars name = some f → dom = some d →
      lookupVar (decl s name dom).vars name = some (set_dom f d) ∧
      (set_dom f d).dom = d ∧
      (set_dom f d).step =
        (if domain_equal f.dom d then f.step else f.step + 1)) ∧
    (decl s name dom).props = s.props := by
  refine ⟨?_, ?_, ?_⟩
  · intro h
    simp only [decl, h]
    exact lookupVar_setVar_self _ _ _
  · intro f d hf hd
    subst hd
    simp only [decl, hf]
    refine ⟨lookupVar_setVar_self _ _ _, set_dom_dom f d, ?_⟩
    unfold set_dom
    split
    · rename_i h
      simp [h]
    · rename_i h
      simp only [Bool.not_eq_true] at h
      simp [h]
  · unfold decl
    split
    · split <;> rfl
    · rfl

/-- C5 witness: `decl_spec` applied to the creation of `x` with domain
`[[0,5]]` in an empty space and to the re-declaration of `x` with
`[[3,10]]`. -/
theorem decl_spec_witness :
    lookupVar (decl ⟨[], []⟩ (.str "x") (some [((0 : Int), (5 : Int))])).vars
      (.str "x") = some ⟨[(0, 5)], 0⟩ ∧
    lookupVar (decl (decl ⟨[], []⟩ (.str "x") (some [((0 : Int), (5 : Int))]))
      (.str "x") (some [(3, 10)])).vars (.str "x") =
      some (set_dom ⟨[(0, 5)], 0⟩ [(3, 10)]) ∧
    (set_dom ⟨[((0 : Int), (5 : Int))], 0⟩ [(3, 10)]).dom = [(3, 10)] :=
  ⟨(decl_spec ⟨[], []⟩ (.str "x") (some [((0 : Int), (5 : Int))])).1 rfl,
   ((decl_spec (decl ⟨[], []⟩ (.str "x") (some [((0 : Int), (5 : Int))]))
      (.str "x") (some [(3, 10)])).2.1 ⟨[(0, 5)], 0⟩ [(3, 10)] rfl rfl).1,
   ((decl_spec (decl ⟨[], []⟩ (.str "x") (some [((0 : Int), (5 : Int))]))
      (.str "x") (some [(3, 10)])).2.1 ⟨[(0, 5)], 0⟩ [(3, 10)] rfl rfl).2.1⟩

/-- C5 counterexample: declaring `x` with `[[0,5]]` and then re-declaring
it with `[[3,10]]` leaves `x` with domain `[[3,10]]`, which contains `10`;
the intersection `[[0,5]] ∩ [[3,10]] = [[3,5]]` does not.  So `decl` on an
existing variable does not constrain to the intersection. -/
theorem decl_constrain_counterexample :
    (lookupVar (decl (decl ⟨[], []⟩ (.str "x") (some [((0 : Int), (5 : Int))]))
      (.str "x") (some [(3, 10)])).vars (.str "x")).map FDVarR.dom =
      some [(3, 10)] ∧
    memD [((3 : Int), (10 : Int))] 10 ∧
    ¬ memD (domain_intersection [((0 : Int), (5 : Int))] [(3, 10)]) 10 := by
  refine ⟨rfl, by decide, ?_⟩
  rw [domain_intersection, memD_domain_intersection_help]
  simp only [Option.getD_none, memD_nil, false_or]
  rintro ⟨h1, -⟩
  simp only [memD_cons, memD_nil, or_false] at h1
  omega

/-- C10: `product` on an empty variable list raises nothing and posts no
propagator: with `out` supplied the call is the identity on the space;
with `out` omitted it only allocates a fresh temporary with the default
domain `[[0, FD_SUP]]` and returns its name.  `sum`, in contrast, raises
the usage error `"Space.sum: Nothing to sum!"` (distinct from the
propagation-failure token `'fail'`) on empty input. -/
theorem product_empty_noop (w : World) (s : SpaceR) (out : FDName) :
    product w s [] (some out) = (w, s, .ok .rspace) ∧
    product w s [] none = (⟨w.temp_count + 1⟩,
      decl s (.num (w.temp_count + 1)) none,
      .ok (.rname (.num (w.temp_count + 1)))) ∧
    (decl s (.num (w.temp_count + 1)) none).props = s.props ∧
    (lookupVar s.vars (.num (w.temp_count + 1)) = none →
      lookupVar (decl s (.num (w.temp_count + 1)) none).vars
        (.num (w.temp_count + 1)) = some ⟨[(0, FD_SUP)], 0⟩) ∧
    sum w s [] (some out) = (w, s, .error (.usage "Space.sum: Nothing to sum!")) ∧
    sum w s [] none = (⟨w.temp_count + 1⟩,
      decl s (.num (w.temp_count + 1)) none,
      .error (.usage "Space.sum: Nothing to sum!")) ∧
    FDExc.usage "Space.sum: Nothing to sum!" ≠ FDExc.fail := by
  refine ⟨?_, ?_, (decl_spec s (.num (w.temp_count + 1)) none).2.2, ?_, ?_, ?_, by simp⟩
  · rw [product, product.product_body]
  · rw [product, product.product_body]
    rfl
  · exact (decl_spec s (.num (w.temp_count + 1)) none).1
  · rw [sum, sum.sum_body]
  · rw [sum, sum.sum_body]
    rfl

/-- C10 witness: `product_empty_noop` at a concrete world and space, the
freshness hypothesis discharged at the empty space. -/
theorem product_empty_noop_witness :
    product ⟨0⟩ ⟨[], []⟩ [] (some (.str "o")) = (⟨0⟩, ⟨[], []⟩, .ok .rspace) ∧
    lookupVar (decl (⟨[], []⟩ : SpaceR) (.num 1) none).vars (.num 1) =
      some ⟨[(0, FD_SUP)], 0⟩ :=
  ⟨(product_empty_noop ⟨0⟩ ⟨[], []⟩ (.str "o")).1,
   (product_empty_noop ⟨0⟩ ⟨[], []⟩ (.str "o")).2.2.2.1 rfl⟩

/-- C8: the degenerate and error cases of `Space.scale`.  A negative
factor raises the usage error `"scale: negative factors not supported."`
— an exception distinct from the propagation-failure token `'fail'` —
with the space returned untouched (no propagator added).  Factor `0` is
the same call as `eq` between a fresh `[[0,0]]` temporary and `p`;
factor `1` is the same call as `eq(v, p)`; a factor `> 1` appends
exactly the two directed scaling propagators. -/
theorem scale_spec (w : World) (s : SpaceR) (kneg kbig : Int) (v : FDName)
    (p : Option FDName) (hneg : kneg < 0) (hbig : 1 < kbig) :
    scale w s kneg v p =
      (w, s, .error (.usage "scale: negative factors not supported.")) ∧
    FDExc.usage "scale: negative factors not supported." ≠ FDExc.fail ∧
    scale w s 0 v p = eq (temp w s (some [(0, 0)])).1
      (temp w s (some [(0, 0)])).2.1
      (FDName.num (temp w s (some [(0, 0)])).2.2) p ∧
    scale w s 1 v p = eq w s v p ∧
    (∃ pn, (scale w s kbig v p).2.1.props = s.props ++
      [⟨.pscale_mul kbig, [v, pn], [v], -1, false⟩,
       ⟨.pscale_div kbig, [v, pn], [pn], -1, false⟩]) := by
  refine ⟨?_, by simp, ?_, ?_, ?_⟩
  · rw [scale.eq_def, if_neg (by omega), if_neg (by omega), if_pos hneg]
  · rw [scale.eq_def, if_neg (by norm_num), if_pos rfl]
  · rw [scale.eq_def, if_pos rfl]
  · rw [scale.eq_def, if_neg (by omega), if_neg (by omega), if_neg (by omega)]
    match p with
    | some pn =>
      exact ⟨pn, by simp [scale_post, newprop]⟩
    | none =>
      refine ⟨FDName.num (w.temp_count + 1), ?_⟩
      have hd : (decl s (.num (w.temp_count + 1)) none).props = s.props :=
        (decl_spec s (.num (w.temp_count + 1)) none).2.2
      simp [scale_post, newprop, temp, hd]

/-- C8 witness: `scale_spec` at factor `-1` (error case) and `2` (the
two directed propagators), in a fresh space. -/
theorem scale_spec_witness :
    scale ⟨0⟩ ⟨[], []⟩ (-1) (.str "v") none =
      (⟨0⟩, ⟨[], []⟩, .error (.usage "scale: negative factors not supported.")) ∧
    (∃ pn, (scale ⟨0⟩ ⟨[], []⟩ 2 (.str "v") none).2.1.props =
      ([] : List PropR) ++
      [⟨.pscale_mul 2, [.str "v", pn], [.str "v"], -1, false⟩,
       ⟨.pscale_div 2, [.str "v", pn], [pn], -1, false⟩]) :=
  ⟨(scale_spec ⟨0⟩ ⟨[], []⟩ (-1) 2 (.str "v") none (by norm_num) (by norm_num)).1,
   (scale_spec ⟨0⟩ ⟨[], []⟩ (-1) 2 (.str "v") none (by norm_num)
     (by norm_num)).2.2.2.2⟩

/-! ### C9: global monotonicity of the temporary-name counter -/

theorem temp_count_temp (w : World) (s : SpaceR) (d : Option (List Iv)) :
    (temp w s d).1.temp_count = w.temp_count + 1 := rfl

theorem temp_count_temps (w : World) (s : SpaceR) (n : Nat)
    (d : Option (List Iv)) :
    w.temp_count ≤ (temps w s n d).1.temp_count := by
  induction n generalizing w s with
  | zero => exact le_refl _
  | succ n ih =>
    rw [temps]
    exact le_trans (by rw [temp_count_temp]; omega) (ih (temp w s d).1 _)

theorem temp_count_konst (w : World) (s : SpaceR) (val : Int) :
    w.temp_count ≤ (konst w s val).1.temp_count := by
  rw [konst]
  split
  · exact le_refl _
  · rw [temp_count_temp]; omega

theorem temp_count_eq (w : World) (s : SpaceR) (v1 : FDName)
    (v2 : Option FDName) : w.temp_count ≤ (eq w s v1 v2).1.temp_count := by
  cases v2 <;> exact le_refl _

theorem temp_count_ring (w : World) (s : SpaceR) (op : RingOp) (v1 v2 : FDName)
    (sn : Option FDName) : w.temp_count ≤ (ring w s op v1 v2 sn).1.temp_count := by
  cases sn
  · rw [ring, temp_count_temp]; omega
  · exact le_refl _

theorem temp_count_scale (w : World) (s : SpaceR) (k : Int) (v : FDName)
    (p : Option FDName) : w.temp_count ≤ (scale w s k v p).1.temp_count := by
  rw [scale.eq_def]
  split
  · exact temp_count_eq w s v p
  · split
    · exact le_trans (by rw [temp_count_temp]; omega)
        (temp_count_eq (temp w s (some [(0, 0)])).1 _ _ p)
    · split
      · exact le_refl _
      · cases p
        · rw [temp_count_temp]; omega
        · exact le_refl _

theorem temp_count_bindPost {α β : Type} (a : Nat)
    (r : World × SpaceR × Except FDExc α)
    (f : World → SpaceR → α → World × SpaceR × Except FDExc β)
    (h1 : a ≤ r.1.temp_count)
    (h2 : ∀ w' s' v, r = (w', s', .ok v) → a ≤ (f w' s' v).1.temp_count) :
    a ≤ (bindPost r f).1.temp_count := by
  rcases r with ⟨w', s', exc⟩
  cases exc with
  | error e => exact h1
  | ok v => exact h2 w' s' v rfl

theorem temp_count_times_plus (w : World) (s : SpaceR) (k1 : Int) (v1 : FDName)
    (k2 : Int) (v2 : FDName) (rn : Option FDName) :
    w.temp_count ≤ (times_plus w s k1 v1 k2 v2 rn).1.temp_count := by
  rw [times_plus]
  refine temp_count_bindPost _ _ _ (temp_count_scale w s k1 v1 none) ?_
  intro w1 s1 r1 hr1
  have m1 := temp_count_scale w s k1 v1 none
  rw [hr1] at m1
  refine temp_count_bindPost _ _ _ (le_trans m1 (temp_count_scale w1 s1 k2 v2 none)) ?_
  intro w2 s2 r2 hr2
  have m2 := temp_count_scale w1 s1 k2 v2 none
  rw [hr2] at m2
  exact le_trans m1 (le_trans m2 (temp_count_ring w2 s2 .add (rname_of r1) (rname_of r2) rn))

theorem temp_count_sum_body (vars : List FDName) (w : World) (s : SpaceR)
    (rn : FDName) (ret : FDRet) :
    w.temp_count ≤ (sum.sum_body w s vars rn ret).1.temp_count := by
  have H : ∀ (N : Nat) (vars : List FDName), vars.length ≤ N →
      ∀ (w : World) (s : SpaceR) (rn : FDName) (ret : FDRet),
      w.temp_count ≤ (sum.sum_body w s vars rn ret).1.temp_count := by
    intro N
    induction N with
    | zero =>
      intro vars hlen w s rn ret
      match vars with
      | [] => rw [sum.sum_body]
    | succ N ih =>
      intro vars hlen w s rn ret
      match vars with
      | [] => rw [sum.sum_body]
      | [v] => rw [sum.sum_body]
      | [v1, v2] => rw [sum.sum_body]
      | v1 :: v2 :: v3 :: vs =>
        rw [sum.sum_body]
        have hd : ((v1 :: v2 :: v3 :: vs).drop
            ((v1 :: v2 :: v3 :: vs).length / 2)).length ≤ N := by
          simp at hlen ⊢
          omega
        have ht : ((v1 :: v2 :: v3 :: vs).take
            ((v1 :: v2 :: v3 :: vs).length / 2)).length ≤ N := by
          simp at hlen ⊢
          omega
        have m2 := ih _ hd (temp w s none).1 (temp w s none).2.1
          (FDName.num (temp w s none).2.2) .rspace
        refine temp_count_bindPost _ _ _
          (le_trans (by rw [temp_count_temp]; omega) m2) ?_
        intro w2 s2 v hr2
        rw [hr2] at m2
        dsimp only at m2
        rw [temp_count_temp] at m2
        split
        · have m4 := ih _ ht (temp w2 s2 none).1 (temp w2 s2 none).2.1
            (FDName.num (temp w2 s2 none).2.2) .rspace
          refine temp_count_bindPost _ _ _ ?_ ?_
          · refine le_trans ?_ m4
            rw [temp_count_temp]
            omega
          · intro w4 s4 v4 hr4
            rw [hr4] at m4
            dsimp only at m4
            rw [temp_count_temp] at m4
            show w.temp_count ≤ w4.temp_count
            omega
        · show w.temp_count ≤ w2.temp_count
          omega
  exact H vars.length vars (le_refl _) w s rn ret


theorem temp_count_product_body (vars : List FDName) (w : World) (s : SpaceR)
    (rn : FDName) (ret : FDRet) :
    w.temp_count ≤ (product.product_body w s vars rn ret).1.temp_count := by
  have H : ∀ (N : Nat) (vars : List FDName), vars.length ≤ N →
      ∀ (w : World) (s : SpaceR) (rn : FDName) (ret : FDRet),
      w.temp_count ≤ (product.product_body w s vars rn ret).1.temp_count := by
    intro N
    induction N with
    | zero =>
      intro vars hlen w s rn ret
      match vars with
      | [] => rw [product.product_body]
    | succ N ih =>
      intro vars hlen w s rn ret
      match vars with
      | [] => rw [product.product_body]
      | [v] => rw [product.product_body]
      | [v1, v2] => rw [product.product_body]
      | v1 :: v2 :: v3 :: vs =>
        rw [product.product_body]
        have hd : ((v1 :: v2 :: v3 :: vs).drop
            ((v1 :: v2 :: v3 :: vs).length / 2)).length ≤ N := by
          simp at hlen ⊢
          omega
        have ht : ((v1 :: v2 :: v3 :: vs).take
            ((v1 :: v2 :: v3 :: vs).length / 2)).length ≤ N := by
          simp at hlen ⊢
          omega
        have m2 := ih _ hd (temp w s none).1 (temp w s none).2.1
          (FDName.num (temp w s none).2.2) .rspace
        refine temp_count_bindPost _ _ _
          (le_trans (by rw [temp_count_temp]; omega) m2) ?_
        intro w2 s2 v hr2
        rw [hr2] at m2
        dsimp only at m2
        rw [temp_count_temp] at m2
        split
        · have m4 := ih _ ht (temp w2 s2 none).1 (temp w2 s2 none).2.1
            (FDName.num (temp w2 s2 none).2.2) .rspace
          refine temp_count_bindPost _ _ _ ?_ ?_
          · refine le_trans ?_ m4
            rw [temp_count_temp]
            omega
          · intro w4 s4 v4 hr4
            rw [hr4] at m4
            dsimp only at m4
            rw [temp_count_temp] at m4
            show w.temp_count ≤ w4.temp_count
            omega
        · show w.temp_count ≤ w2.temp_count
          omega
  exact H vars.length vars (le_refl _) w s rn ret

theorem temp_count_sum (w : World) (s : SpaceR) (vars : List FDName)
    (rn : Option FDName) : w.temp_count ≤ (sum w s vars rn).1.temp_count := by
  cases rn with
  | some r => exact temp_count_sum_body vars w s r .rspace
  | none =>
    rw [sum]
    exact le_trans (by rw [temp_count_temp]; omega)
      (temp_count_sum_body vars (temp w s none).1 (temp w s none).2.1
        (FDName.num (temp w s none).2.2) (.rname (FDName.num (temp w s none).2.2)))

theorem temp_count_product (w : World) (s : SpaceR) (vars : List FDName)
    (rn : Option FDName) : w.temp_count ≤ (product w s vars rn).1.temp_count := by
  cases rn with
  | some r => exact temp_count_product_body vars w s r .rspace
  | none =>
    rw [product]
    exact le_trans (by rw [temp_count_temp]; omega)
      (temp_count_product_body vars (temp w s none).1 (temp w s none).2.1
        (FDName.num (temp w s none).2.2) (.rname (FDName.num (temp w s none).2.2)))

theorem temp_count_wsum_loop (pairs : List (Int × FDName)) (w : World)
    (s : SpaceR) (acc : List FDName) :
    w.temp_count ≤ (wsum_loop w s pairs acc).1.temp_count := by
  induction pairs generalizing w s acc with
  | nil => exact le_refl _
  | cons p rest ih =>
    rcases p with ⟨k, v⟩
    rw [wsum_loop]
    have m1 := temp_count_scale (temp w s none).1 (temp w s none).2.1 k v
      (some (FDName.num (temp w s none).2.2))
    refine temp_count_bindPost _ _ _
      (le_trans (by rw [temp_count_temp]; omega) m1) ?_
    intro w2 s2 v2 hr2
    rw [hr2] at m1
    dsimp only at m1
    rw [temp_count_temp] at m1
    exact le_trans (by omega) (ih w2 s2 _)

theorem temp_count_wsum (w : World) (s : SpaceR) (ks : List Int)
    (vars : List FDName) (rn : Option FDName) :
    w.temp_count ≤ (wsum w s ks vars rn).1.temp_count := by
  rw [wsum]
  have m1 := temp_count_wsum_loop (ks.zip vars) w s []
  refine temp_count_bindPost _ _ _ m1 ?_
  intro w1 s1 ts hr1
  rw [hr1] at m1
  dsimp only at m1
  exact le_trans m1 (temp_count_sum w1 s1 ts rn)

/-- One call of the public posting interface, viewed as a transition on
the class-global temporary counter.  (`decl` and `num` take no world and
are identity transitions.) -/
inductive OpStep : World → World → Prop
  | tempS (w : World) (s : SpaceR) (dom : Option (List Iv)) :
      OpStep w (temp w s dom).1
  | tempsS (w : World) (s : SpaceR) (n : Nat) (dom : Option (List Iv)) :
      OpStep w (temps w s n dom).1
  | konstS (w : World) (s : SpaceR) (val : Int) : OpStep w (konst w s val).1
  | declS (w : World) : OpStep w w
  | eqS (w : World) (s : SpaceR) (v1 : FDName) (v2 : Option FDName) :
      OpStep w (eq w s v1 v2).1
  | ltS (w : World) (s : SpaceR) (v1 v2 : FDName) : OpStep w (lt w s v1 v2).1
  | gtS (w : World) (s : SpaceR) (v1 v2 : FDName) : OpStep w (gt w s v1 v2).1
  | lteS (w : World) (s : SpaceR) (v1 v2 : FDName) : OpStep w (lte w s v1 v2).1
  | gteS (w : World) (s : SpaceR) (v1 v2 : FDName) : OpStep w (gte w s v1 v2).1
  | neqS (w : World) (s : SpaceR) (v1 v2 : FDName) : OpStep w (neq w s v1 v2).1
  | distinctS (w : World) (s : SpaceR) (vars : List FDName) :
      OpStep w (distinct w s vars).1
  | ringS (w : World) (s : SpaceR) (op : RingOp) (v1 v2 : FDName)
      (sn : Option FDName) : OpStep w (ring w s op v1 v2 sn).1
  | scaleS (w : World) (s : SpaceR) (k : Int) (v : FDName)
      (p : Option FDName) : OpStep w (scale w s k v p).1
  | times_plusS (w : World) (s : SpaceR) (k1 : Int) (v1 : FDName) (k2 : Int)
      (v2 : FDName) (rn : Option FDName) :
      OpStep w (times_plus w s k1 v1 k2 v2 rn).1
  | sumS (w : World) (s : SpaceR) (vars : List FDName) (rn : Option FDName) :
      OpStep w (sum w s vars rn).1
  | productS (w : World) (s : SpaceR) (vars : List FDName)
      (rn : Option FDName) : OpStep w (product w s vars rn).1
  | wsumS (w : World) (s : SpaceR) (ks : List Int) (vars : List FDName)
      (rn : Option FDName) : OpStep w (wsum w s ks vars rn).1

/-- Every posting call leaves the class-global temporary counter at least
as large as before. -/
theorem opStep_mono {w w' : World} (h : OpStep w w') :
    w.temp_count ≤ w'.temp_count := by
  cases h with
  | tempS s dom => rw [temp_count_temp]; omega
  | tempsS s n dom => exact temp_count_temps w s n dom
  | konstS s val => exact temp_count_konst w s val
  | declS => exact le_refl _
  | eqS s v1 v2 => exact temp_count_eq w s v1 v2
  | ltS s v1 v2 => exact le_refl _
  | gtS s v1 v2 => exact le_refl _
  | lteS s v1 v2 => exact le_refl _
  | gteS s v1 v2 => exact le_refl _
  | neqS s v1 v2 => exact le_refl _
  | distinctS s vars => exact le_refl _
  | ringS s op v1 v2 sn => exact temp_count_ring w s op v1 v2 sn
  | scaleS s k v p => exact temp_count_scale w s k v p
  | times_plusS s k1 v1 k2 v2 rn => exact temp_count_times_plus w s k1 v1 k2 v2 rn
  | sumS s vars rn => exact temp_count_sum w s vars rn
  | productS s vars rn => exact temp_count_product w s vars rn
  | wsumS s ks vars rn => exact temp_count_wsum w s ks vars rn

/-- Any sequence of posting calls, in any spaces. -/
def Reachable : World → World → Prop := Relation.ReflTransGen OpStep

theorem reachable_mono {w w' : World} (h : Reachable w w') :
    w.temp_count ≤ w'.temp_count := by
  induction h with
  | refl => exact le_refl _
  | tail _ hstep ih => exact le_trans ih (opStep_mono hstep)

/-- C9: `Space.temp` returns `_temp_count + 1` after incrementing the
class-global counter, and every later `temp` call — after any sequence
of posting calls in any spaces — returns a strictly larger name.  Hence
no two temporaries ever share a name, even across unrelated spaces. -/
theorem temp_names_strictly_increase (w : World) (s1 : SpaceR)
    (d1 : Option (List Iv)) (w2 : World) (s2 : SpaceR) (d2 : Option (List Iv))
    (h : Reachable (temp w s1 d1).1 w2) :
    (temp w s1 d1).2.2 = w.temp_count + 1 ∧
    w.temp_count < (temp w s1 d1).1.temp_count ∧
    (temp w s1 d1).2.2 < (temp w2 s2 d2).2.2 := by
  have hm := reachable_mono h
  rw [temp_count_temp] at hm
  refine ⟨rfl, by rw [temp_count_temp]; omega, ?_⟩
  show w.temp_count + 1 < w2.temp_count + 1
  omega

/-- C9 witness: starting from counter 5, the first `temp` returns 6; after
a further `konst` call (one `Reachable` step) the next `temp` returns a
strictly larger name. -/
theorem temp_names_strictly_increase_witness :
    (temp ⟨5⟩ ⟨[], []⟩ none).2.2 = 6 ∧
    (temp ⟨5⟩ ⟨[], []⟩ none).2.2 <
      (temp (konst (temp ⟨5⟩ ⟨[], []⟩ none).1 ⟨[], []⟩ 3).1 ⟨[], []⟩ none).2.2 := by
  have h := temp_names_strictly_increase ⟨5⟩ ⟨[], []⟩ none
    (konst (temp ⟨5⟩ ⟨[], []⟩ none).1 ⟨[], []⟩ 3).1 ⟨[], []⟩ none
    (Relation.ReflTransGen.single
      (OpStep.konstS (temp ⟨5⟩ ⟨[], []⟩ none).1 ⟨[], []⟩ 3))
  exact ⟨h.1, h.2.2⟩

/-! ## Propagator step semantics and the propagation fixpoint loop

Each propagator's `step` closure is interpreted from its stored kind.
Variables are resolved by name in the space's store at step time; a
failed lookup yields `stuck` (the JS closure would crash there).  The
inner `do..while` loops of `lt`/`lte`/`neq` consume explicit fuel;
`nofuel` marks exhaustion and is distinct from the thrown `'fail'`. -/

/-- `domain_bounds`: first `lo` and last `hi`; `none` models the thrown
`'fail'` on an empty domain. -/
def domain_bounds : List Iv → Option (Int × Int)
  | [] => none
  | h :: t => some (h.1, lastHi h t)
where
  lastHi (h : Iv) : List Iv → Int
    | [] => h.2
    | h' :: t' => lastHi h' t'

/-- Sum of the revision counters of the named variables, as the step
functions compute `v1.step + v2.step (+ ...)`; `none` when a variable is
missing from the store. -/
def stepsum (vars : Vars) : List FDName → Option Int
  | [] => some 0
  | n :: rest =>
    match lookupVar vars n, stepsum vars rest with
    | some v, some k => some ((v.step : Int) + k)
    | _, _ => none

/-- Result of narrowing one variable. -/
inductive NRes
  | ok (vars : Vars)
  | fail
  | stuck
deriving DecidableEq, Repr

/-- `t.set_dom(domain_non_empty(d))` for a precomputed domain `d`:
replace the domain of `t` (bumping its revision if it changed), throwing
`'fail'` when `d` is empty. -/
def assign_dom (vars : Vars) (t : FDName) (d : List Iv) : NRes :=
  match lookupVar vars t with
  | none => .stuck
  | some v => if d = [] then .fail else .ok (setVar vars t (set_dom v d))

/-- `t.set_dom(domain_non_empty(domain_intersection(t.dom, di)))`. -/
def constrain_dom (vars : Vars) (t : FDName) (di : List Iv) : NRes :=
  match lookupVar vars t with
  | none => .stuck
  | some v => assign_dom vars t (domain_intersection v.dom di)

/-- Result of an inner `do..while` loop. -/
inductive LRes
  | ok (vars : Vars) (last : Int)
  | fail
  | nofuel
  | stuck
deriving DecidableEq, Repr

/-- The two conditional narrowings performed by one iteration of the
inner loop of `lt` / `lte` / `neq`, parameterised over the conditions
and narrowing domains (all computed from the bounds snapshot read at the
top of the iteration).  `tgt1`/`tgt2` select which of the two variables
each narrowing writes (`true` = the first). -/
structure BinNarrow where
  cond1 : Int × Int → Int × Int → Bool
  int1 : Int × Int → Int × Int → List Iv
  tgt1 : Bool
  cond2 : Int × Int → Int × Int → Bool
  int2 : Int × Int → Int × Int → List Iv
  tgt2 : Bool

/-- The loop body of `lt`: narrow `v1` to `[b1.lo, b2.hi − 1]` when
`b2.hi − 1 < b1.hi`, then `v2` to `[b1.lo + 1, b2.hi]` when
`b1.lo + 1 > b2.lo`. -/
def bn_lt : BinNarrow :=
  ⟨fun b1 b2 => b2.2 - 1 < b1.2, fun b1 b2 => [(b1.1, b2.2 - 1)], true,
   fun b1 b2 => b1.1 + 1 > b2.1, fun b1 b2 => [(b1.1 + 1, b2.2)], false⟩

/-- The loop body of `lte`: both narrowings use `[b1.lo, b2.hi]`. -/
def bn_lte : BinNarrow :=
  ⟨fun b1 b2 => b2.2 < b1.2, fun b1 b2 => [(b1.1, b2.2)], true,
   fun b1 b2 => b1.1 > b2.1, fun b1 b2 => [(b1.1, b2.2)], false⟩

/-- The loop body of `neq`: when a bound interval is a singleton, remove
it from the other variable via `domain_complement`. -/
def bn_neq : BinNarrow :=
  ⟨fun b1 _ => b1.1 = b1.2, fun b1 _ => domain_complement [b1], false,
   fun _ b2 => b2.1 = b2.2, fun _ b2 => domain_complement [b2], true⟩

/-- The fuelled inner `do..while` loop shared by `lt`, `lte` and `neq`:
read both bounds (failing on an empty domain), apply the two conditional
narrowings against that snapshot, and repeat while the revision sum has
grown past the value saved at the top of the iteration. -/
def bin_loop (bn : BinNarrow) (x y : FDName) : Nat → Vars → LRes
  | 0, _ => .nofuel
  | fuel + 1, vars =>
    match lookupVar vars x, lookupVar vars y with
    | some v1, some v2 =>
      match domain_bounds v1.dom, domain_bounds v2.dom with
      | some b1, some b2 =>
        match (if bn.cond1 b1 b2 then
            constrain_dom vars (if bn.tgt1 then x else y) (bn.int1 b1 b2)
          else .ok vars) with
        | .fail => .fail
        | .stuck => .stuck
        | .ok vars1 =>
          match (if bn.cond2 b1 b2 then
              constrain_dom vars1 (if bn.tgt2 then x else y) (bn.int2 b1 b2)
            else .ok vars1) with
          | .fail => .fail
          | .stuck => .stuck
          | .ok vars2 =>
            match stepsum vars2 [x, y] with
            | none => .stuck
            | some after =>
              if after > (v1.step : Int) + (v2.step : Int) then
                bin_loop bn x y fuel vars2
              else .ok vars2 after
      | _, _ => .fail
    | _, _ => .stuck

/-- Result of one propagator body (the part of the step function behind
the revision guard). -/
inductive BRes
  | ok (vars : Vars) (solved : Bool)
  | fail
  | nofuel
  | stuck
deriving DecidableEq, Repr

/-- Did the propagator compute its return value as
`this.last_step - nextStep` even when the guard is inactive?  Only the
three ring propagators have the `return` outside the guard `if`. -/
def is_ring_kind : PKind → Bool
  | .pring_fwd _ | .pring_bwd1 _ | .pring_bwd2 _ => true
  | _ => false

/-- The body of a propagator's step function (run when the guard
`nextStep > last_step` is active).  Faithful per kind; see the source
step closures. -/
def prop_body (fuel : Nat) (vars : Vars) (p : PropR) : BRes :=
  match p.kind, p.allvars with
  | .peq, [x, y] =>
    match lookupVar vars x, lookupVar vars y with
    | some v1, some v2 =>
      match assign_dom vars x (domain_intersection v1.dom v2.dom) with
      | .fail => .fail
      | .stuck => .stuck
      | .ok vars1 =>
        match assign_dom vars1 y (domain_intersection v1.dom v2.dom) with
        | .fail => .fail
        | .stuck => .stuck
        | .ok vars2 => .ok vars2 p.solved
    | _, _ => .stuck
  | .plt, [x, y] =>
    match lookupVar vars x, lookupVar vars y with
    | some v1, some v2 =>
      match domain_bounds v1.dom, domain_bounds v2.dom with
      | some b1, some b2 =>
        if b2.1 > b1.2 then .ok vars true
        else
          match bin_loop bn_lt x y fuel vars with
          | .ok vars2 _ => .ok vars2 p.solved
          | .fail => .fail
          | .nofuel => .nofuel
          | .stuck => .stuck
      | _, _ => .fail
    | _, _ => .stuck
  | .plte, [x, y] =>
    match lookupVar vars x, lookupVar vars y with
    | some v1, some v2 =>
      match domain_bounds v1.dom, domain_bounds v2.dom with
      | some b1, some b2 =>
        if b2.1 ≥ b1.2 then .ok vars true
        else
          match bin_loop bn_lte x y fuel vars with
          | .ok vars2 _ => .ok vars2 p.solved
          | .fail => .fail
          | .nofuel => .nofuel
          | .stuck => .stuck
      | _, _ => .fail
    | _, _ => .stuck
  | .pneq, [x, y] =>
    match lookupVar vars x, lookupVar vars y with
    | some v1, some v2 =>
      match domain_bounds v1.dom, domain_bounds v2.dom with
      | some b1, some b2 =>
        if b2.1 > b1.2 ∨ b1.2 < b2.1 then .ok vars true
        else if domain_intersection v1.dom v2.dom = [] then .ok vars true
        else
          match bin_loop bn_neq x y fuel vars with
          | .ok vars2 _ => .ok vars2 p.solved
          | .fail => .fail
          | .nofuel => .nofuel
          | .stuck => .stuck
      | _, _ => .fail
    | _, _ => .stuck
  | .pscale_mul k, [x, pr] =>
    match lookupVar vars x, lookupVar vars pr with
    | some v, some prod =>
      match domain_bounds v.dom with
      | none => .fail
      | some _ =>
        match assign_dom vars pr (domain_intersection
            (v.dom.map fun i => (min FD_SUP (i.1 * k), min FD_SUP (i.2 * k)))
            prod.dom) with
        | .fail => .fail
        | .stuck => .stuck
        | .ok vars1 => .ok vars1 p.solved
    | _, _ => .stuck
  | .pscale_div k, [x, pr] =>
    match lookupVar vars x, lookupVar vars pr with
    | some v, some prod =>
      match assign_dom vars x (domain_intersection
          (simplify_domain (prod.dom.map fun i => (i.1 / k, i.2 / k)))
          v.dom) with
      | .fail => .fail
      | .stuck => .stuck
      | .ok vars1 => .ok vars1 p.solved
    | _, _ => .stuck
  | .pring_fwd op, [a, b, c] =>
    match lookupVar vars a, lookupVar vars b, lookupVar vars c with
    | some v1, some v2, some vsum =>
      match assign_dom vars c (domain_intersection
          (ring_plusop op v1.dom v2.dom) vsum.dom) with
      | .fail => .fail
      | .stuck => .stuck
      | .ok vars1 => .ok vars1 p.solved
    | _, _, _ => .stuck
  | .pring_bwd1 op, [a, b, c] =>
    match lookupVar vars a, lookupVar vars b, lookupVar vars c with
    | some v1, some v2, some vsum =>
      match assign_dom vars a (domain_intersection
          (ring_minusop op vsum.dom v2.dom) v1.dom) with
      | .fail => .fail
      | .stuck => .stuck
      | .ok vars1 => .ok vars1 p.solved
    | _, _, _ => .stuck
  | .pring_bwd2 op, [a, b, c] =>
    match lookupVar vars a, lookupVar vars b, lookupVar vars c with
    | some v1, some v2, some vsum =>
      match assign_dom vars b (domain_intersection
          (ring_minusop op vsum.dom v1.dom) v2.dom) with
      | .fail => .fail
      | .stuck => .stuck
      | .ok vars1 => .ok vars1 p.solved
    | _, _, _ => .stuck
  | _, _ => .stuck

/-- Result of one propagator step: the updated store, the updated
propagator state and the returned count. -/
inductive StepRes
  | ok (vars : Vars) (p : PropR) (count : Int)
  | fail
  | nofuel
  | stuck
deriving DecidableEq, Repr

/-- One invocation of a propagator's step function: read
`nextStep = Σ steps`, run the body when `nextStep > last_step`, set
`last_step` to the revision sum after the body and return the
difference.  With the guard inactive, the step returns `0` (the ring
propagators literally return `last_step - nextStep`, their `return`
being outside the guard). -/
def prop_step (fuel : Nat) (vars : Vars) (p : PropR) : StepRes :=
  match stepsum vars p.allvars with
  | none => .stuck
  | some next =>
    if next > p.last_step then
      match prop_body fuel vars p with
      | .ok vars' solved' =>
        match stepsum vars' p.allvars with
        | some last' =>
          .ok vars' { p with last_step := last', solved := solved' }
            (last' - next)
        | none => .stuck
      | .fail => .fail
      | .nofuel => .nofuel
      | .stuck => .stuck
    else
      .ok vars p (if is_ring_kind p.kind then p.last_step - next else 0)

/-- Result of one pass over all propagators. -/
inductive PassRes
  | ok (vars : Vars) (props : List PropR) (count : Int)
  | fail
  | nofuel
  | stuck
deriving DecidableEq, Repr

/-- One pass of `propagate`: run every propagator in insertion order,
threading the variable store and summing the returned counts. -/
def pass (fuel : Nat) (vars : Vars) : List PropR → PassRes
  | [] => .ok vars [] 0
  | p :: rest =>
    match prop_step fuel vars p with
    | .ok vars' p' c =>
      match pass fuel vars' rest with
      | .ok vars'' rest' c' => .ok vars'' (p' :: rest') (c + c')
      | .fail => .fail
      | .nofuel => .nofuel
      | .stuck => .stuck
    | .fail => .fail
    | .nofuel => .nofuel
    | .stuck => .stuck

/-- Result of `Space.propagate`. -/
inductive PRes
  | ok (s : SpaceR) (total : Int)
  | fail
  | nofuel
  | stuck
deriving DecidableEq, Repr

/-- The `do { … } while (count > 0)` loop of `Space.propagate`. -/
def propagate_loop (sfuel : Nat) : Nat → Vars → List PropR → Int → PRes
  | 0, _, _, _ => .nofuel
  | fuel + 1, vars, props, total =>
    match pass sfuel vars props with
    | .ok vars' props' c =>
      if c > 0 then propagate_loop sfuel fuel vars' props' (total + c)
      else .ok ⟨vars', props'⟩ (total + c)
    | .fail => .fail
    | .nofuel => .nofuel
    | .stuck => .stuck

/-- `Space.propagate`: run passes until one makes no change; returns the
total number of revision increments or propagates `'fail'`. -/
def propagate (fuel sfuel : Nat) (s : SpaceR) : PRes :=
  propagate_loop sfuel fuel s.vars s.props 0

theorem lookupVar_setVar (vs : Vars) (t : FDName) (v' : FDVarR) (n : FDName) :
    lookupVar (setVar vs t v') n = if n = t then some v' else lookupVar vs n := by
  by_cases h : n = t
  · subst h
    rw [if_pos rfl]
    exact lookupVar_setVar_self vs n v'
  · rw [if_neg h]
    exact lookupVar_setVar_other vs t n v' (fun he => h he.symm)

theorem setVar_self (vs : Vars) (t : FDName) (v : FDVarR)
    (h : lookupVar vs t = some v) : setVar vs t v = vs := by
  induction vs with
  | nil => cases h
  | cons p rest ih =>
    rw [lookupVar] at h
    rw [setVar]
    by_cases he : p.1 = t
    · rw [if_pos he] at h ⊢
      cases h
      rfl
    · rw [if_neg he] at h ⊢
      rw [ih h]

theorem stepsum_setVar (vs : Vars) (t : FDName) (v v' : FDVarR)
    (ht : lookupVar vs t = some v) (ns : List FDName) (k : Int)
    (hk : stepsum vs ns = some k) :
    ∃ k', stepsum (setVar vs t v') ns = some k' ∧
      (v.step ≤ v'.step → k ≤ k') ∧
      (v.step < v'.step → t ∈ ns → k < k') := by
  induction ns generalizing k with
  | nil =>
    rw [stepsum] at hk ⊢
    cases hk
    exact ⟨0, rfl, fun _ => le_refl _, fun _ h => absurd h (by simp)⟩
  | cons n rest ih =>
    rw [stepsum] at hk
    rcases hn : lookupVar vs n with _ | vn
    · rw [hn] at hk; cases hk
    · rcases hr : stepsum vs rest with _ | kr
      · rw [hn, hr] at hk; cases hk
      · rw [hn, hr] at hk
        cases hk
        obtain ⟨kr', hkr', hmono, hstrict⟩ := ih kr hr
        by_cases hnt : n = t
        · subst hnt
          rw [ht] at hn
          cases hn
          refine ⟨(v'.step : Int) + kr', ?_, ?_, ?_⟩
          · rw [stepsum, lookupVar_setVar, if_pos rfl, hkr']
          · intro hle
            have := hmono hle
            omega
          · intro hlt _
            have := hmono (le_of_lt hlt)
            omega
        · refine ⟨(vn.step : Int) + kr', ?_, ?_, ?_⟩
          · rw [stepsum, lookupVar_setVar, if_neg hnt, hn, hkr']
          · intro hle
            have := hmono hle
            omega
          · intro hlt hmem
            rcases List.mem_cons.1 hmem with he | hm
            · exact absurd he.symm hnt
            · have := hstrict hlt hm
              omega

theorem assign_dom_spec (vs : Vars) (t : FDName) (d : List Iv) (vs' : Vars)
    (h : assign_dom vs t d = .ok vs') :
    ∃ v, lookupVar vs t = some v ∧ d ≠ [] ∧
      ((set_dom v d = v ∧ vs' = vs) ∨
       ((set_dom v d).step = v.step + 1 ∧
        vs' = setVar vs t (set_dom v d))) := by
  rw [assign_dom] at h
  rcases hv : lookupVar vs t with _ | v
  · rw [hv] at h; cases h
  · rw [hv] at h
    dsimp only at h
    by_cases hd : d = []
    · rw [if_pos hd] at h
      cases h
    · rw [if_neg hd] at h
      cases h
      refine ⟨v, rfl, hd, ?_⟩
      by_cases he : domain_equal v.dom d
      · left
        have hsd : set_dom v d = v := by rw [set_dom, if_pos he]
        exact ⟨hsd, by rw [hsd, setVar_self vs t v hv]⟩
      · right
        rw [set_dom, if_neg he]
        exact ⟨rfl, rfl⟩

/-- Monotone evolution of the store as seen through revision sums, plus
the converse on the propagator's own variables: if their revision sum
did not move, the store did not move. -/
def MonoRel (vs vs' : Vars) (own : List FDName) : Prop :=
  (∀ ns k, stepsum vs ns = some k → ∃ k', stepsum vs' ns = some k' ∧ k ≤ k') ∧
  (∀ k k', stepsum vs own = some k → stepsum vs' own = some k' → k' = k →
    vs' = vs)

theorem MonoRel_refl (vs : Vars) (own : List FDName) : MonoRel vs vs own :=
  ⟨fun ns k hk => ⟨k, hk, le_refl k⟩, fun _ _ _ _ _ => rfl⟩

theorem MonoRel_trans {vs vs1 vs2 : Vars} {own : List FDName}
    (h1 : MonoRel vs vs1 own) (h2 : MonoRel vs1 vs2 own) :
    MonoRel vs vs2 own := by
  refine ⟨?_, ?_⟩
  · intro ns k hk
    obtain ⟨k1, hk1, hle1⟩ := h1.1 ns k hk
    obtain ⟨k2, hk2, hle2⟩ := h2.1 ns k1 hk1
    exact ⟨k2, hk2, le_trans hle1 hle2⟩
  · intro k k2 hk hk2 heq
    obtain ⟨k1, hk1, hle1⟩ := h1.1 own k hk
    obtain ⟨k2', hk2', hle2⟩ := h2.1 own k1 hk1
    rw [hk2] at hk2'
    cases hk2'
    have hk1k : k1 = k := by omega
    have hv1 : vs1 = vs := h1.2 k k1 hk hk1 hk1k
    subst hv1
    exact h2.2 k k2 hk hk2 heq

theorem assign_dom_MonoRel (vs : Vars) (t : FDName) (d : List Iv)
    (vs' : Vars) (own : List FDName) (hmem : t ∈ own)
    (h : assign_dom vs t d = .ok vs') : MonoRel vs vs' own := by
  obtain ⟨v, hv, hd, hcase⟩ := assign_dom_spec vs t d vs' h
  rcases hcase with ⟨hsd, rfl⟩ | ⟨hstep, rfl⟩
  · exact MonoRel_refl _ own
  · constructor
    · intro ns k hk
      obtain ⟨k', hk', hmono, _⟩ := stepsum_setVar vs t v (set_dom v d) hv ns k hk
      exact ⟨k', hk', hmono (by omega)⟩
    · intro k k' hk hk' heq
      obtain ⟨k'', hk'', _, hstrict⟩ := stepsum_setVar vs t v (set_dom v d) hv own k hk
      rw [hk'] at hk''
      cases hk''
      have := hstrict (by omega) hmem
      omega

theorem constrain_dom_MonoRel (vs : Vars) (t : FDName) (di : List Iv)
    (vs' : Vars) (own : List FDName) (hmem : t ∈ own)
    (h : constrain_dom vs t di = .ok vs') : MonoRel vs vs' own := by
  rw [constrain_dom] at h
  rcases hv : lookupVar vs t with _ | v
  · rw [hv] at h; cases h
  · rw [hv] at h
    exact assign_dom_MonoRel vs t _ vs' own hmem h

theorem if_constrain_MonoRel (c : Bool) (vs : Vars) (t : FDName)
    (di : List Iv) (vs1 : Vars) (own : List FDName) (hmem : t ∈ own)
    (h : (if c then constrain_dom vs t di else .ok vs) = .ok vs1) :
    MonoRel vs vs1 own := by
  cases c with
  | false =>
    rw [if_neg (by simp)] at h
    cases h
    exact MonoRel_refl _ own
  | true =>
    rw [if_pos rfl] at h
    exact constrain_dom_MonoRel vs t di vs1 own hmem h

theorem bin_loop_MonoRel (bn : BinNarrow) (x y : FDName) (own : List FDName)
    (hx : x ∈ own) (hy : y ∈ own) (fuel : Nat) :
    ∀ (vars vars2 : Vars) (last : Int),
    bin_loop bn x y fuel vars = .ok vars2 last → MonoRel vars vars2 own := by
  induction fuel with
  | zero =>
    intro vars vars2 last h
    rw [bin_loop] at h
    cases h
  | succ fuel ih =>
    intro vars vars2 last h
    have ht1 : (if bn.tgt1 then x else y) ∈ own := by
      cases bn.tgt1 <;> simp [hx, hy]
    have ht2 : (if bn.tgt2 then x else y) ∈ own := by
      cases bn.tgt2 <;> simp [hx, hy]
    rw [bin_loop] at h
    split at h
    · rename_i v1 v2 hv1 hv2
      split at h
      · rename_i b1 b2 hb1 hb2
        split at h
        · cases h
        · cases h
        · rename_i vars1 heq1
          split at h
          · cases h
          · cases h
          · rename_i vars2' heq2
            have m1 : MonoRel vars vars1 own :=
              if_constrain_MonoRel _ vars _ _ vars1 own ht1 heq1
            have m2 : MonoRel vars1 vars2' own :=
              if_constrain_MonoRel _ vars1 _ _ vars2' own ht2 heq2
            split at h
            · cases h
            · rename_i after hafter
              split at h
              · exact MonoRel_trans (MonoRel_trans m1 m2) (ih vars2' vars2 last h)
              · cases h
                exact MonoRel_trans m1 m2
      · cases h
    · cases h

theorem prop_body_MonoRel (fuel : Nat) (vars : Vars) (p : PropR)
    (vars' : Vars) (sv : Bool) (h : prop_body fuel vars p = .ok vars' sv) :
    MonoRel vars vars' p.allvars := by
  rw [prop_body] at h
  split at h
  -- peq
  · rename_i x y hkind hvars
    split at h
    · rename_i v1 v2 hv1 hv2
      split at h
      · cases h
      · cases h
      · rename_i vars1 heq1
        split at h
        · cases h
        · cases h
        · rename_i vars2 heq2
          cases h
          rw [hvars]
          exact MonoRel_trans
            (assign_dom_MonoRel vars x _ vars1 [x, y] (by simp) heq1)
            (assign_dom_MonoRel vars1 y _ vars' [x, y] (by simp) heq2)
    · cases h
  -- plt
  · rename_i x y hkind hvars
    split at h
    · rename_i v1 v2 hv1 hv2
      split at h
      · rename_i b1 b2 hb1 hb2
        split at h
        · cases h
          exact MonoRel_refl _ _
        · split at h
          · rename_i vars2 last hloop
            cases h
            rw [hvars]
            exact bin_loop_MonoRel bn_lt x y [x, y] (by simp) (by simp)
              fuel vars vars' last hloop
          · cases h
          · cases h
          · cases h
      · cases h
    · cases h
  -- plte
  · rename_i x y hkind hvars
    split at h
    · rename_i v1 v2 hv1 hv2
      split at h
      · rename_i b1 b2 hb1 hb2
        split at h
        · cases h
          exact MonoRel_refl _ _
        · split at h
          · rename_i vars2 last hloop
            cases h
            rw [hvars]
            exact bin_loop_MonoRel bn_lte x y [x, y] (by simp) (by simp)
              fuel vars vars' last hloop
          · cases h
          · cases h
          · cases h
      · cases h
    · cases h
  -- pneq
  · rename_i x y hkind hvars
    split at h
    · rename_i v1 v2 hv1 hv2
      split at h
      · rename_i b1 b2 hb1 hb2
        split at h
        · cases h
          exact MonoRel_refl _ _
        · split at h
          · cases h
            exact MonoRel_refl _ _
          · split at h
            · rename_i vars2 last hloop
              cases h
              rw [hvars]
              exact bin_loop_MonoRel bn_neq x y [x, y] (by simp) (by simp)
                fuel vars vars' last hloop
            · cases h
            · cases h
            · cases h
      · cases h
    · cases h
  -- pscale_mul
  · rename_i k x pr hkind hvars
    split at h
    · rename_i v prod hv hprod
      split at h
      · cases h
      · split at h
        · cases h
        · cases h
        · rename_i vars1 heq1
          cases h
          rw [hvars]
          exact assign_dom_MonoRel vars pr _ vars' [x, pr] (by simp) heq1
    · cases h
  -- pscale_div
  · rename_i k x pr hkind hvars
    split at h
    · rename_i v prod hv hprod
      split at h
      · cases h
      · cases h
      · rename_i vars1 heq1
        cases h
        rw [hvars]
        exact assign_dom_MonoRel vars x _ vars' [x, pr] (by simp) heq1
    · cases h
  -- pring_fwd
  · rename_i op a b c hkind hvars
    split at h
    · rename_i v1 v2 vsum hv1 hv2 hv3
      split at h
      · cases h
      · cases h
      · rename_i vars1 heq1
        cases h
        rw [hvars]
        exact assign_dom_MonoRel vars c _ vars' [a, b, c] (by simp) heq1
    · cases h
  -- pring_bwd1
  · rename_i op a b c hkind hvars
    split at h
    · rename_i v1 v2 vsum hv1 hv2 hv3
      split at h
      · cases h
      · cases h
      · rename_i vars1 heq1
        cases h
        rw [hvars]
        exact assign_dom_MonoRel vars a _ vars' [a, b, c] (by simp) heq1
    · cases h
  -- pring_bwd2
  · rename_i op a b c hkind hvars
    split at h
    · rename_i v1 v2 vsum hv1 hv2 hv3
      split at h
      · cases h
      · cases h
      · rename_i vars1 heq1
        cases h
        rw [hvars]
        exact assign_dom_MonoRel vars b _ vars' [a, b, c] (by simp) heq1
    · cases h
  -- catch-all
  · cases h

/-- The working invariant of the fixpoint loop: the saved `last_step`
never exceeds the current revision sum of the propagator's variables
(true at creation where `last_step = -1`, and preserved because
revisions only grow). -/
def InvP (vars : Vars) (p : PropR) : Prop :=
  ∃ k, stepsum vars p.allvars = some k ∧ p.last_step ≤ k

/-- A propagator whose `last_step` equals the current revision sum: its
guard is inactive, so its step is a no-op returning 0. -/
def QuiescedP (vars : Vars) (p : PropR) : Prop :=
  ∃ k, stepsum vars p.allvars = some k ∧ p.last_step = k

theorem prop_step_quiesced (f : Nat) (vars : Vars) (p : PropR)
    (h : QuiescedP vars p) : prop_step f vars p = .ok vars p 0 := by
  obtain ⟨k, hk, hl⟩ := h
  rw [prop_step, hk]
  dsimp only
  rw [if_neg (by omega)]
  have hc : (if is_ring_kind p.kind then p.last_step - k else 0) = 0 := by
    split <;> omega
  rw [hc]

theorem prop_step_spec (f : Nat) (vars : Vars) (p : PropR) (vars' : Vars)
    (p' : PropR) (c : Int) (k : Int)
    (hk : stepsum vars p.allvars = some k) (hInv : p.last_step ≤ k)
    (h : prop_step f vars p = .ok vars' p' c) :
    p'.allvars = p.allvars ∧
    ∃ k', stepsum vars' p.allvars = some k' ∧ k ≤ k' ∧ c = k' - k ∧
      p'.last_step = k' ∧ (c = 0 → vars' = vars) ∧
      (∀ ns m, stepsum vars ns = some m →
        ∃ m', stepsum vars' ns = some m' ∧ m ≤ m') := by
  rw [prop_step, hk] at h
  dsimp only at h
  by_cases hguard : k > p.last_step
  · rw [if_pos hguard] at h
    cases hb : prop_body f vars p with
    | ok varsb svb =>
      rw [hb] at h
      dsimp only at h
      have hm := prop_body_MonoRel f vars p varsb svb hb
      obtain ⟨k', hk', hle⟩ := hm.1 p.allvars k hk
      rw [hk'] at h
      cases h
      refine ⟨rfl, k', hk', hle, rfl, rfl, ?_, ?_⟩
      · intro hc0
        exact hm.2 k k' hk hk' (by omega)
      · exact fun ns m hm' => hm.1 ns m hm'
    | fail => rw [hb] at h; dsimp only at h; cases h
    | nofuel => rw [hb] at h; dsimp only at h; cases h
    | stuck => rw [hb] at h; dsimp only at h; cases h
  · rw [if_neg hguard] at h
    cases h
    refine ⟨rfl, k, hk, le_refl k, ?_, ?_, fun _ => rfl,
      fun ns m hm' => ⟨m, hm', le_refl m⟩⟩
    · split <;> omega
    · omega

theorem pass_spec (f : Nat) (props : List PropR) :
    ∀ (vars vars' : Vars) (props' : List PropR) (c : Int),
    pass f vars props = .ok vars' props' c →
    (∀ p ∈ props, InvP vars p) →
    0 ≤ c ∧
    (∀ ns m, stepsum vars ns = some m →
      ∃ m', stepsum vars' ns = some m' ∧ m ≤ m') ∧
    (∀ p' ∈ props', InvP vars' p') ∧
    (c = 0 → vars' = vars ∧ ∀ p' ∈ props', QuiescedP vars' p') := by
  induction props with
  | nil =>
    intro vars vars' props' c h hInv
    rw [pass] at h
    cases h
    exact ⟨le_refl 0, fun ns m hm => ⟨m, hm, le_refl m⟩, by simp,
      fun _ => ⟨rfl, by simp⟩⟩
  | cons p rest ih =>
    intro vars vars' props' c h hInv
    rw [pass] at h
    split at h
    · rename_i vars1 p1 c1 hstep
      split at h
      · rename_i vars2 rest' c2 hrest
        cases h
        obtain ⟨k, hk, hle⟩ := hInv p (by simp)
        obtain ⟨hall, k', hk', hkle, hc1, hlast1, hc10, hmono1⟩ :=
          prop_step_spec f vars p vars1 p1 c1 k hk hle hstep
        have hInv1 : ∀ q ∈ rest, InvP vars1 q := by
          intro q hq
          obtain ⟨m, hm, hlm⟩ := hInv q (by simp [hq])
          obtain ⟨m', hm', hmm⟩ := hmono1 q.allvars m hm
          exact ⟨m', hm', by omega⟩
        obtain ⟨hc2, hmono2, hInv2, hq2⟩ := ih vars1 _ rest' c2 hrest hInv1
        refine ⟨by omega, ?_, ?_, ?_⟩
        · intro ns m hm
          obtain ⟨m', hm', hmm⟩ := hmono1 ns m hm
          obtain ⟨m'', hm'', hmm'⟩ := hmono2 ns m' hm'
          exact ⟨m'', hm'', by omega⟩
        · intro q' hq'
          rcases List.mem_cons.1 hq' with rfl | hmem
          · obtain ⟨m'', hm'', hmm'⟩ := hmono2 p.allvars k' hk'
            exact ⟨m'', by rw [hall]; exact hm'', by omega⟩
          · exact hInv2 q' hmem
        · intro hc0
          have hc1z : c1 = 0 := by omega
          have hc2z : c2 = 0 := by omega
          obtain ⟨hv2, hqall⟩ := hq2 hc2z
          have hv1 : vars1 = vars := hc10 hc1z
          subst hv1
          subst hv2
          refine ⟨rfl, ?_⟩
          intro q' hq'
          rcases List.mem_cons.1 hq' with rfl | hmem
          · rw [QuiescedP, hall]
            exact ⟨k', hk', hlast1⟩
          · exact hqall q' hmem
      · cases h
      · cases h
      · cases h
    · cases h
    · cases h
    · cases h

theorem propagate_loop_spec (sf : Nat) (fuel : Nat) :
    ∀ (vars : Vars) (props : List PropR) (total : Int) (s' : SpaceR)
    (tot' : Int),
    propagate_loop sf fuel vars props total = .ok s' tot' →
    (∀ p ∈ props, InvP vars p) →
    ∀ p ∈ s'.props, QuiescedP s'.vars p := by
  induction fuel with
  | zero =>
    intro vars props total s' tot' h hInv
    rw [propagate_loop] at h
    cases h
  | succ fuel ih =>
    intro vars props total s' tot' h hInv
    rw [propagate_loop] at h
    split at h
    · rename_i vars1 props1 c hpass
      obtain ⟨hc, hmono, hInv1, hq⟩ := pass_spec sf props vars vars1 props1 c
        hpass hInv
      split at h
      · exact ih vars1 props1 (total + c) s' tot' h hInv1
      · rename_i hcle
        cases h
        obtain ⟨hv, hqall⟩ := hq (by omega)
        exact hqall
    · cases h
    · cases h
    · cases h

/-- C6: whenever `Space.propagate` returns normally, the space is at a
propagation fixpoint: immediately re-invoking the step function of any
of the space's propagators returns 0 and leaves every variable's domain
and revision counter (and the propagator itself) unchanged.  The
hypothesis `InvP` states that each propagator's saved `last_step` does
not exceed the current revision sum of its variables — true of every
freshly posted propagator (`last_step = -1`) and maintained by the
engine, since revisions only grow. -/
theorem propagate_fixpoint (fuel sfuel : Nat) (s : SpaceR) (s' : SpaceR)
    (total : Int) (hInv : ∀ p ∈ s.props, InvP s.vars p)
    (h : propagate fuel sfuel s = .ok s' total) :
    ∀ p ∈ s'.props, ∀ f, prop_step f s'.vars p = .ok s'.vars p 0 := by
  intro p hp f
  exact prop_step_quiesced f s'.vars p
    (propagate_loop_spec sfuel fuel s.vars s.props 0 s' total h hInv p hp)

/-- C6 witness: a space with variables `x ∈ [[1,2]]`, `y ∈ [[5,6]]` and
one `lt` propagator whose guard is already saturated (`last_step = 0`);
`propagate` returns normally and the fixpoint property is obtained for
the propagator. -/
theorem propagate_fixpoint_witness :
    propagate 2 3 ⟨[(.str "x", ⟨[(1, 2)], 0⟩), (.str "y", ⟨[(5, 6)], 0⟩)],
      [⟨.plt, [.str "x", .str "y"], [.str "x", .str "y"], 0, false⟩]⟩ =
      .ok ⟨[(.str "x", ⟨[(1, 2)], 0⟩), (.str "y", ⟨[(5, 6)], 0⟩)],
        [⟨.plt, [.str "x", .str "y"], [.str "x", .str "y"], 0, false⟩]⟩ 0 ∧
    prop_step 5
      [(.str "x", ⟨[(1, 2)], 0⟩), (.str "y", ⟨[(5, 6)], 0⟩)]
      ⟨.plt, [.str "x", .str "y"], [.str "x", .str "y"], 0, false⟩ =
      .ok [(.str "x", ⟨[(1, 2)], 0⟩), (.str "y", ⟨[(5, 6)], 0⟩)]
        ⟨.plt, [.str "x", .str "y"], [.str "x", .str "y"], 0, false⟩ 0 := by
  constructor
  · rfl
  · exact propagate_fixpoint 2 3
      ⟨[(.str "x", ⟨[(1, 2)], 0⟩), (.str "y", ⟨[(5, 6)], 0⟩)],
        [⟨.plt, [.str "x", .str "y"], [.str "x", .str "y"], 0, false⟩]⟩
      ⟨[(.str "x", ⟨[(1, 2)], 0⟩), (.str "y", ⟨[(5, 6)], 0⟩)],
        [⟨.plt, [.str "x", .str "y"], [.str "x", .str "y"], 0, false⟩]⟩ 0
      (by
        intro p hp
        simp only [List.mem_singleton] at hp
        subst hp
        exact ⟨0, rfl, by norm_num⟩)
      rfl
      ⟨.plt, [.str "x", .str "y"], [.str "x", .str "y"], 0, false⟩
      (by simp) 5

/-- SPEC-SIDE definition, transcribed from the claim's words for
`lt(x, y)` (not from the code): until the involved revisions quiesce,
read the bounds `(xlo, xhi)` and `(ylo, yhi)`, constrain `x` to
`[xlo, yhi − 1]` when `yhi − 1 < xhi`, constrain `y` to
`[xlo + 1, yhi]` when `xlo + 1 > ylo`, each constraining failing
exactly when the intersection with the current domain is empty. -/
def lt_claim_loop (x y : FDName) : Nat → Vars → LRes
  | 0, _ => .nofuel
  | fuel + 1, vars =>
    match lookupVar vars x, lookupVar vars y with
    | some v1, some v2 =>
      match domain_bounds v1.dom, domain_bounds v2.dom with
      | some (xlo, xhi), some (ylo, yhi) =>
        match (if yhi - 1 < xhi then
            constrain_dom vars x [(xlo, yhi - 1)] else .ok vars) with
        | .fail => .fail
        | .stuck => .stuck
        | .ok vars1 =>
          match (if xlo + 1 > ylo then
              constrain_dom vars1 y [(xlo + 1, yhi)] else .ok vars1) with
          | .fail => .fail
          | .stuck => .stuck
          | .ok vars2 =>
            match stepsum vars2 [x, y] with
            | none => .stuck
            | some after =>
              if after > (v1.step : Int) + (v2.step : Int) then
                lt_claim_loop x y fuel vars2
              else .ok vars2 after
      | _, _ => .fail
    | _, _ => .stuck

theorem bin_loop_lt_eq (x y : FDName) : ∀ (fuel : Nat) (vars : Vars),
    bin_loop bn_lt x y fuel vars = lt_claim_loop x y fuel vars := by
  intro fuel
  induction fuel with
  | zero => intro vars; rfl
  | succ fuel ih =>
    intro vars
    rw [bin_loop, lt_claim_loop]
    cases h1 : lookupVar vars x with
    | none => rfl
    | some v1 =>
    cases h2 : lookupVar vars y with
    | none => rfl
    | some v2 =>
    dsimp only
    cases hb1 : domain_bounds v1.dom with
    | none => rfl
    | some b1 =>
    cases hb2 : domain_bounds v2.dom with
    | none => rfl
    | some b2 =>
    obtain ⟨xlo, xhi⟩ := b1
    obtain ⟨ylo, yhi⟩ := b2
    simp only [bn_lt, decide_eq_true_eq, eq_self_iff_true, if_true,
      Bool.false_eq_true, if_false]
    repeat' first
    | rfl
    | exact ih _
    | split

/-- C7: the `lt(x, y)` propagator behaves as claimed.  With both
domains non-empty (bounds defined) and the revision guard active:
(1) when `ylo > xhi` the step marks the propagator solved and returns
`0` with no change to the store; (2) otherwise the body is exactly the
claim's loop `lt_claim_loop` — constrain `x` to `[xlo, yhi − 1]` when
`yhi − 1 < xhi`, constrain `y` to `[xlo + 1, yhi]` when
`xlo + 1 > ylo`, repeating until the involved revisions quiesce (the
loop written from the claim's words; `bin_loop bn_lt` refines it); and
(3) each constraining raises Fail exactly when the intersection with
the current domain is empty. -/
theorem lt_propagator_spec (f : Nat) (vars : Vars) (p : PropR)
    (x y : FDName) (v1 v2 : FDVarR) (xlo xhi ylo yhi next : Int)
    (hk : p.kind = .plt) (ha : p.allvars = [x, y])
    (h1 : lookupVar vars x = some v1) (h2 : lookupVar vars y = some v2)
    (hb1 : domain_bounds v1.dom = some (xlo, xhi))
    (hb2 : domain_bounds v2.dom = some (ylo, yhi))
    (hnext : stepsum vars [x, y] = some next)
    (hguard : next > p.last_step) :
    (ylo > xhi →
      prop_step f vars p =
        .ok vars { p with last_step := next, solved := true } 0) ∧
    (¬ ylo > xhi →
      prop_body f vars p =
        (match lt_claim_loop x y f vars with
          | .ok vars2 _ => .ok vars2 p.solved
          | .fail => .fail
          | .nofuel => .nofuel
          | .stuck => .stuck)) ∧
    (∀ (fuel : Nat) (vs : Vars),
      bin_loop bn_lt x y fuel vs = lt_claim_loop x y fuel vs) ∧
    (∀ (vs : Vars) (t : FDName) (di : List Iv) (v : FDVarR),
      lookupVar vs t = some v →
      (constrain_dom vs t di = .fail ↔ domain_intersection v.dom di = [])) := by
  obtain ⟨pk, pa, pd, pl, ps⟩ := p
  dsimp only at hk ha hguard ⊢
  subst hk
  subst ha
  refine ⟨?_, ?_, fun fuel vs => bin_loop_lt_eq x y fuel vs, ?_⟩
  · intro hsolved
    rw [prop_step]
    dsimp only
    rw [hnext]
    dsimp only
    rw [if_pos hguard]
    rw [prop_body]
    dsimp only
    rw [h1, h2]
    dsimp only
    rw [hb1, hb2]
    dsimp only
    rw [if_pos hsolved]
    dsimp only
    rw [hnext]
    dsimp only
    rw [sub_self]
  · intro hns
    rw [prop_body]
    dsimp only
    rw [h1, h2]
    dsimp only
    rw [hb1, hb2]
    dsimp only
    rw [if_neg hns, bin_loop_lt_eq x y f vars]
  · intro vs t di v hv
    rw [constrain_dom, hv]
    dsimp only
    rw [assign_dom, hv]
    dsimp only
    constructor
    · intro hf
      by_cases he : domain_intersection v.dom di = []
      · exact he
      · rw [if_neg he] at hf
        cases hf
    · intro he
      rw [if_pos he]

/-- C7 witness: a solved-branch instance.  With `x ∈ [[1,2]]`,
`y ∈ [[5,6]]` the lower bound of `y` exceeds the upper bound of `x`, so
one step of the freshly posted `lt` propagator (`last_step = −1`) marks
it solved, returns 0 and leaves the store unchanged. -/
theorem lt_propagator_spec_witness :
    prop_step 4 [(.str "x", ⟨[(1, 2)], 0⟩), (.str "y", ⟨[(5, 6)], 0⟩)]
      ⟨.plt, [.str "x", .str "y"], [.str "x", .str "y"], -1, false⟩ =
      .ok [(.str "x", ⟨[(1, 2)], 0⟩), (.str "y", ⟨[(5, 6)], 0⟩)]
        ⟨.plt, [.str "x", .str "y"], [.str "x", .str "y"], 0, true⟩ 0 :=
  (lt_propagator_spec 4
    [(.str "x", ⟨[(1, 2)], 0⟩), (.str "y", ⟨[(5, 6)], 0⟩)]
    ⟨.plt, [.str "x", .str "y"], [.str "x", .str "y"], -1, false⟩
    (.str "x") (.str "y") ⟨[(1, 2)], 0⟩ ⟨[(5, 6)], 0⟩ 1 2 5 6 0
    rfl rfl rfl rfl rfl rfl (by decide) (by decide)).1 (by decide)

end FD
